import Mathlib

/-!
build-dotenv: merging a `.env` file with fetched secret bundles.

A shallow embedding of `src/main.go` (function `main`, with `getSecret` and the
standard-library calls it makes taken as collaborators) and theorems about it.

Modelling conventions

* A Go `string` is a `List Char` (`Str`).  Every delimiter the program looks at
  (`=`, `#`, `/`, `"`, `,`, line feed, carriage return) is a single ASCII byte,
  so splitting by character and splitting by byte agree.
* A Go `map[string]string` is an association list with pairwise distinct keys
  (`EnvMap`); `m[k] = v` is `EnvMap.set`.  Go leaves the iteration order of a
  map unspecified, so every `for ... range` over a map goes through the
  `range` field of the `World`, which may return the entries in any order.
* `panic(err)` and `log.Fatalf` end the run; `main` returns the `Outcome`
  together with the state in which it leaves the target file.
* The standard library is not part of the program.  `bufio.ScanLines` and
  `strings` are modelled after their documentation.  The scanner gives up on a
  read error (the `scanFails` flag of the `World`) and on a line that fills its
  buffer of 65536 bytes (`tooLong`, computed from the text); `load` is the map
  built when the scanner delivers every line, `loadFile` the result of the
  load step with the failure on an over-long line.  `encoding/json` is split
  into its syntax (a parameter of the `World`) and the storing of a JSON value
  in a `map[string]string`.
-/

namespace BuildDotenv

/-- Go strings, as lists of characters. -/
abbrev Str := List Char

/-! ## `strings` helpers used by `main` -/

/-- `strings.Split(s, sep)` for a one-character separator: all the pieces of `s`
between occurrences of `sep`.  The result is never empty; a string without the
separator comes back as the single piece `[s]`. -/
def split (s : Str) (sep : Char) : List Str :=
  match s with
  | [] => [[]]
  | c :: cs =>
    if c = sep then [] :: split cs sep
    else
      match split cs sep with
      | [] => [[c]]
      | p :: ps => (c :: p) :: ps

/-- `strings.Join(parts, "")`: the pieces glued together with nothing between them. -/
def joinEmpty (parts : List Str) : Str :=
  match parts with
  | [] => []
  | p :: ps => p ++ joinEmpty ps

/-- `strings.HasPrefix(s, p)` for a one-character prefix `p`. -/
def startsWith (s : Str) (p : Char) : Bool :=
  match s with
  | [] => false
  | c :: _ => decide (c = p)

/-- Number of bytes of a string (`len(s)`). -/
def byteLen (s : Str) : Nat := (s.map Char.utf8Size).sum

/-! ## The map `envData` -/

/-- A `map[string]string`: key/value entries, keys pairwise distinct. -/
abbrev EnvMap := List (Str × Str)

namespace EnvMap

/-- The assignment `m[k] = v`: overwrite the entry of `k` if there is one, add it otherwise. -/
def set (m : EnvMap) (k v : Str) : EnvMap :=
  match m with
  | [] => [(k, v)]
  | (k', v') :: rest => if k' = k then (k, v) :: rest else (k', v') :: set rest k v

/-- The lookup `m[k]` with its presence flag. -/
def get? (m : EnvMap) (k : Str) : Option Str :=
  match m with
  | [] => none
  | (k', v') :: rest => if k' = k then some v' else get? rest k

/-- The keys of the map. -/
def keys (m : EnvMap) : List Str := m.map Prod.fst

end EnvMap

/-! ## Loading the file (lines 120-133) -/

/-- Line-ending removal of `bufio.ScanLines`: one trailing carriage return is dropped. -/
def dropCR (s : Str) : Str :=
  match s with
  | [] => []
  | [c] => if c = '\r' then [] else [c]
  | c :: cs => c :: dropCR cs

/-- The raw lines of a text as `bufio.ScanLines` cuts it: every line feed ends a
line, and what follows the last line feed is a line only if it is not empty. -/
def rawLines (text : Str) : List Str :=
  match text with
  | [] => []
  | c :: cs =>
    if c = '\n' then [] :: rawLines cs
    else
      match rawLines cs with
      | [] => [[c]]
      | l :: ls => (c :: l) :: ls

/-- The sequence of `fileScanner.Text()` values for a file with the given
content (`bufio.Scanner` with its default split function `ScanLines`). -/
def scanLines (text : Str) : List Str := (rawLines text).map dropCR

/-- Size of the buffer of a `bufio.Scanner` (`bufio.MaxScanTokenSize`). -/
def maxScanTokenSize : Nat := 65536

/-- The scanner ends with the error "token too long" (raised as a panic at line
137): some line, counted with its carriage return and without its line feed,
fills the buffer, that is, has 65536 bytes or more. -/
def tooLong (text : Str) : Bool :=
  (rawLines text).any (fun l => decide (maxScanTokenSize ≤ byteLen l))

/-- The same for a target file that may be absent. -/
def tooLongFile (file : Option Str) : Bool :=
  match file with
  | some text => tooLong text
  | none => false

/-- Body of the scanning loop (lines 123-132) for one line. -/
def loadLine (envData : EnvMap) (line : Str) : EnvMap :=
  if !startsWith line '#' then
    let keyValue := split line '='
    let keyValue := keyValue ++ [[]]
    let key := keyValue.headD []
    let value := joinEmpty keyValue.tail
    envData.set key value
  else envData

/-- The scanning loop (lines 122-133) over the lines the scanner delivers. -/
def loadLines (envData : EnvMap) (lines : List Str) : EnvMap :=
  lines.foldl loadLine envData

/-- The map held in `envData` after the file with the given content has been read. -/
def load (text : Str) : EnvMap := loadLines [] (scanLines text)

/-- The load step as a whole (lines 120-138) on a file that is read without
I/O error: the loaded map, or `none` when the scanner gives up on a line that
is too long. -/
def loadFile (text : Str) : Option EnvMap :=
  if tooLong text then none else some (load text)

/-! ## Decoding a secret payload (lines 142-145)

`json.Unmarshal` belongs to Go's standard library.  Its syntax check is taken
as a parameter of the `World` (a payload either is a JSON text, with the value
it denotes, or is not); what it does with a JSON value whose destination is a
`map[string]string` is modelled here after `encoding/json`. -/

/-- A JSON value. -/
inductive JValue where
  | null
  | bool (b : Bool)
  | number (literal : Str)
  | string (s : Str)
  | array (items : List JValue)
  | object (members : List (Str × JValue))

/-- Why a run ended in `panic(err)`. -/
inductive Failure where
  | createBlank
  | openFile
  | scan
  | fetch
  | jsonSyntax
  | jsonType
  deriving DecidableEq, Repr

/-- Storing a member value in a map element of type `string`: a JSON string is
stored as it is, `null` leaves the element at its zero value `""`, and every
other value is an `UnmarshalTypeError`. -/
def storeString (v : JValue) : Option Str :=
  match v with
  | .string s => some s
  | .null => some []
  | _ => none

/-- The members of a JSON object stored one after the other in `sec`; a
repeated member name overwrites. -/
def unmarshalObject (sec : EnvMap) (members : List (Str × JValue)) : Option EnvMap :=
  match members with
  | [] => some sec
  | (k, v) :: rest =>
    match storeString v with
    | some s => unmarshalObject (sec.set k s) rest
    | none => none

/-- The call `json.Unmarshal(payload, &sec)` on a syntactically valid payload,
`sec` being a fresh `map[string]string`: `none` when it returns an error.
A top-level `null` is accepted and leaves no entries. -/
def unmarshal (j : JValue) : Option EnvMap :=
  match j with
  | .null => some []
  | .object members => unmarshalObject [] members
  | _ => none

/-! ## The run -/

/-- Everything `main` reads from outside. -/
structure World where
  /-- Content of the target file before the run; `none` when it does not exist. -/
  file : Option Str
  /-- Value of `AWS_SECRET_CONFIGS` (empty when unset). -/
  secretConfigs : Str
  /-- Result of `getSecret(id)`; `none` when it panics. -/
  getSecret : Str → Option Str
  /-- JSON syntax: the value a payload denotes; `none` when it is not valid JSON. -/
  jsonParse : Str → Option JValue
  /-- Order in which a `for ... range` visits the entries of a map. -/
  range : EnvMap → List (Str × Str)
  /-- The `os.Stat` of line 106 fails with an error other than "does not
  exist" (not a directory, permission denied, ...): `os.IsNotExist` is false
  and no blank file is created, whether the target exists or not. -/
  statOtherError : Bool
  /-- The `os.Create` of line 107 fails. -/
  createBlankFails : Bool
  /-- The `os.Open` of line 113 fails. -/
  openFails : Bool
  /-- The scanner ends with an error (line 136): a read error, or a line too
  long for its buffer. -/
  scanFails : Bool
  /-- The `os.Create` of line 162 fails. -/
  recreateFails : Bool
  /-- Writes to the recreated file fail. -/
  writeFails : Bool
  /-- A target that does not exist and is not created cannot be opened. -/
  statConsistent : file = none → statOtherError = true → openFails = true
  /-- The scanner fails on a file that has a line too long for its buffer. -/
  scanConsistent : tooLongFile file = true → scanFails = true

/-- A legitimate iteration order: `range` returns the entries of the map, each once. -/
def World.RangeOk (w : World) : Prop := ∀ m : EnvMap, (w.range m).Perm m

/-- One pass of the loop body at lines 142-148 once the payload is in hand. -/
def overlay (w : World) (envData : EnvMap) (secretString : Str) : Except Failure EnvMap :=
  match w.jsonParse secretString with
  | none => .error .jsonSyntax
  | some j =>
    match unmarshal j with
    | none => .error .jsonType
    | some sec => .ok ((w.range sec).foldl (fun m kv => m.set kv.1 kv.2) envData)

/-- The loop over the configured bundle identifiers (lines 140-149). -/
def overlayAll (w : World) (envData : EnvMap) (ids : List Str) : Except Failure EnvMap :=
  match ids with
  | [] => .ok envData
  | id :: rest =>
    match w.getSecret id with
    | none => .error .fetch
    | some secretString =>
      match overlay w envData secretString with
      | .error e => .error e
      | .ok m => overlayAll w m rest

/-- The line emitted for one entry (lines 154-158). -/
def renderEntry (key val : Str) : Str :=
  if startsWith val '/' then key ++ ['='] ++ val
  else key ++ ['=', '"'] ++ val ++ ['"']

/-- The loop at lines 151-160 over the entries in the order `range` visits them. -/
def serialize (entries : List (Str × Str)) : List Str :=
  match entries with
  | [] => []
  | (key, val) :: rest =>
    if key ≠ [] then renderEntry key val :: serialize rest
    else serialize rest

/-- Size of the buffer of a `bufio.Writer`. -/
def bufSize : Nat := 4096

/-- A `bufio.Writer` over the recreated file. -/
structure Writer where
  /-- Whether a write to the underlying file succeeds (it does not on the nil
  file left by a failed `os.Create`). -/
  sinkOk : Bool
  /-- What has reached the file. -/
  written : Str
  /-- What is still in the buffer. -/
  buf : Str
  /-- The sticky error of the writer. -/
  err : Bool

/-- `WriteString`: a string that fits in the free part of the buffer is only
buffered; otherwise buffered data and string are handed to the file, which is
where an error can arise.  How much of the string stays in the buffer after
that is not tracked: it changes neither what the file holds after `Flush` nor
the call at which the first error arises. -/
def Writer.writeString (b : Writer) (s : Str) : Writer :=
  if b.err then b
  else if byteLen s > bufSize - byteLen b.buf then
    if b.sinkOk then { b with written := b.written ++ b.buf ++ s, buf := [] }
    else { b with err := true }
  else { b with buf := b.buf ++ s }

/-- `Flush`: hand what is buffered to the file. -/
def Writer.flush (b : Writer) : Writer :=
  if b.err then b
  else if b.buf = [] then b
  else if b.sinkOk then { b with written := b.written ++ b.buf, buf := [] }
  else { b with err := true }

/-- The loop at lines 164-168; the flag tells whether `log.Fatalf` was reached. -/
def writeLoop (b : Writer) (result : List Str) : Writer × Bool :=
  match result with
  | [] => (b, false)
  | line :: rest =>
    let b' := b.writeString (line ++ ['\n'])
    if b'.err then (b', true) else writeLoop b' rest

/-- How a run ends. -/
inductive Outcome where
  | panicked (e : Failure)
  | fatal
  | success
  deriving DecidableEq, Repr

/-- End of a run: how it ended and the target file it leaves (`none`: no file). -/
structure Result where
  outcome : Outcome
  file : Option Str
  deriving DecidableEq, Repr

/-- Lines 162-171: recreate the file, write the lines, flush, report. -/
def writeOut (w : World) (content : Str) (result : List Str) : Result :=
  let onDisk : Str := if w.recreateFails then content else []
  let writer : Writer :=
    { sinkOk := !w.recreateFails && !w.writeFails, written := [], buf := [], err := false }
  match writeLoop writer result with
  | (b, true) => { outcome := .fatal, file := some (onDisk ++ b.written) }
  | (b, false) => { outcome := .success, file := some (onDisk ++ b.flush.written) }

/-- The function `main`.  Lines 105-110 create a blank file only when `os.Stat`
reports that the target does not exist; `os.Open` at line 113 fails on a target
that is still absent after that. -/
def main (w : World) : Result :=
  let awsSecretConfigs := split w.secretConfigs ','
  let notExist := w.file.isNone && !w.statOtherError
  if notExist && w.createBlankFails then { outcome := .panicked .createBlank, file := none }
  else
    match (if notExist then some [] else w.file) with
    | none => { outcome := .panicked .openFile, file := none }
    | some content =>
      if w.openFails then { outcome := .panicked .openFile, file := some content }
      else
        let envData := loadLines [] (scanLines content)
        if w.scanFails || tooLong content then
          { outcome := .panicked .scan, file := some content }
        else
          match overlayAll w envData awsSecretConfigs with
          | .error e => { outcome := .panicked e, file := some content }
          | .ok envData => writeOut w content (serialize (w.range envData))

/-! ## Reference definitions, following the specification's words -/

/-- The text of a line before its first `=` (the whole line when it has none). -/
def beforeFirstEq (line : Str) : Str := line.takeWhile (fun c => c != '=')

/-- The text of a line after its first `=` (empty when it has none). -/
def afterFirstEq (line : Str) : Str := (line.dropWhile (fun c => c != '=')).drop 1

/-- A string with every `=` taken out. -/
def withoutEq (s : Str) : Str := s.filter (fun c => c != '=')

/-- The quoting transform: a value beginning with `/` is kept as it is, any
other value is wrapped in one pair of double quotes. -/
def quoted (v : Str) : Str :=
  match v with
  | '/' :: _ => v
  | _ => ['"'] ++ v ++ ['"']

/-- The bundle a payload decodes to, if it decodes. -/
def decodePayload (w : World) (secretString : Str) : Option EnvMap :=
  match w.jsonParse secretString with
  | none => none
  | some j => unmarshal j

/-- The bundle behind an identifier: fetched and decoded; `none` when the fetch
or the decoding fails. -/
def fetchBundle (w : World) (id : Str) : Option EnvMap :=
  match w.getSecret id with
  | none => none
  | some secretString => decodePayload w secretString

/-- Overlay precedence in the specification's words: a key that occurs in at
least one bundle has the value of the last-listed bundle containing it, any
other key has its file value. -/
def expectedValue (fileMap : EnvMap) (bundles : List EnvMap) (k : Str) : Option Str :=
  match bundles.reverse.find? (fun b => (b.get? k).isSome) with
  | some b => b.get? k
  | none => fileMap.get? k

/-- The text of a file to which the given lines were written, each followed by
a line feed. -/
def fileText (lines : List Str) : Str := joinEmpty (lines.map (fun l => l ++ ['\n']))

/-- The state in which an aborted run leaves the target file: a file that
existed keeps its content; a file that did not exist has been created empty at
line 107, unless `os.Stat` failed otherwise than with "does not exist", so that
the creation was not attempted, or the creation itself failed. -/
def fileAfterAbort (w : World) : Option Str :=
  match w.file with
  | some content => some content
  | none => if w.statOtherError || w.createBlankFails then none else some []

/-- The load step of a run succeeds: the target exists or is created blank, it
is opened, and the scanner reads it to the end. -/
def World.LoadOk (w : World) : Prop :=
  (w.file = none → w.statOtherError = false ∧ w.createBlankFails = false) ∧
  w.openFails = false ∧ w.scanFails = false

/-- The payloads the claim on decode failures takes to be the only ones that
decode: a JSON object whose member values are all strings. -/
def FlatStringObject (j : JValue) : Bool :=
  match j with
  | .object members =>
    members.all (fun kv =>
      match kv.2 with
      | .string _ => true
      | _ => false)
  | _ => false

/-- A member value that can be stored in a `string`: a JSON string or `null`. -/
def memberAccepted (v : JValue) : Bool :=
  match v with
  | .string _ => true
  | .null => true
  | _ => false

/-- The JSON values `json.Unmarshal` accepts for a `map[string]string`: `null`,
and an object whose member values are all strings or `null`. -/
def Accepted (j : JValue) : Bool :=
  match j with
  | .null => true
  | .object members => members.all (fun kv => memberAccepted kv.2)
  | _ => false

/-- A well-formed `KEY=VALUE` line: not a comment, with an `=` in it and a
non-empty key before the first `=`. -/
def WellFormedLine (line : Str) : Prop :=
  startsWith line '#' = false ∧ '=' ∈ line ∧ beforeFirstEq line ≠ []

instance (line : Str) : Decidable (WellFormedLine line) := by
  unfold WellFormedLine
  infer_instance

/-- An entry as the load step produces it from a line with a non-empty key:
the key is not empty, does not begin with `#`, and neither key nor value holds
an `=` or a line feed. -/
def CleanEntry (e : Str × Str) : Prop :=
  e.1 ≠ [] ∧ startsWith e.1 '#' = false ∧ '=' ∉ e.1 ∧ '\n' ∉ e.1 ∧ '=' ∉ e.2 ∧ '\n' ∉ e.2

/-- The last line of a file that is not a comment and has `k` before its first
`=` (or is `k` when it has no `=`). -/
def lastLineFor (lines : List Str) (k : Str) : Option Str :=
  lines.reverse.find? (fun l => !startsWith l '#' && decide (beforeFirstEq l = k))

/-- How often a string occurs in a list of strings. -/
def occurrences (k : Str) (l : List Str) : Nat :=
  (l.filter (fun x => decide (x = k))).length

/-- Number of distinct non-empty keys of a map. -/
def distinctNonEmptyKeys (m : EnvMap) : Nat :=
  (m.keys.dedup.filter (fun k => decide (k ≠ []))).length

/-- The pieces glued together with the separator between them: the inverse of
`split`. -/
def joinWith (sep : Char) (parts : List Str) : Str :=
  match parts with
  | [] => []
  | [p] => p
  | p :: q :: rest => p ++ sep :: joinWith sep (q :: rest)

/-- An entry as the load step produces it: neither key nor value holds an `=`
or a line feed, and the key does not begin with `#`. -/
def LoadedEntry (e : Str × Str) : Prop :=
  '=' ∉ e.1 ∧ '\n' ∉ e.1 ∧ '=' ∉ e.2 ∧ '\n' ∉ e.2 ∧ startsWith e.1 '#' = false

/-- A value wrapped in `n` pairs of double quotes. -/
def wrapQuotes (n : Nat) (v : Str) : Str :=
  match n with
  | 0 => v
  | n + 1 => '"' :: wrapQuotes n v ++ ['"']

/-- The surroundings of a later run: the target file is what the previous run
left; opening it fails when it failed before or when the file is absent and is
not created; the scanner fails on it when it failed before or when the file now
holds a line that is too long; everything else is as before. -/
def World.after (w : World) (file : Option Str) : World :=
  { w with
    file := file
    openFails := w.openFails || (file.isNone && w.statOtherError)
    scanFails := w.scanFails || tooLongFile file
    statConsistent := fun hf hs => by simp [hf, hs]
    scanConsistent := fun h => by simp [h] }

/-- The target file after `n` consecutive runs of the tool in the same
surroundings, each run starting from the file the previous one left. -/
def rerun (w : World) (n : Nat) : Option Str :=
  match n with
  | 0 => w.file
  | n + 1 => (main (w.after (rerun w n))).file

/-- An entry whose written line is read back as one line that assigns the
entry's own key: the key holds neither `=` nor a line feed, and the value holds
no line feed. -/
def Harmless (e : Str × Str) : Prop := '=' ∉ e.1 ∧ '\n' ∉ e.1 ∧ '\n' ∉ e.2

/-! ## Example worlds -/

/-- The target file holds `A=1`; the bundles `b1` and `b2` hold `{"A":"2"}` and
`{"A":"3"}`; maps are visited last entry first. -/
def precedenceWorld : World where
  file := some "A=1".toList
  secretConfigs := "b1,b2".toList
  getSecret := fun i =>
    if i = "b1".toList then some "\x7b\"A\":\"2\"\x7d".toList
    else if i = "b2".toList then some "\x7b\"A\":\"3\"\x7d".toList
    else none
  jsonParse := fun p =>
    if p = "\x7b\"A\":\"2\"\x7d".toList then some (.object [("A".toList, .string "2".toList)])
    else if p = "\x7b\"A\":\"3\"\x7d".toList then some (.object [("A".toList, .string "3".toList)])
    else none
  range := List.reverse
  statOtherError := false
  createBlankFails := false
  openFails := false
  scanFails := false
  recreateFails := false
  writeFails := false
  statConsistent := by decide
  scanConsistent := by decide

/-- The scenario of the specification: the file holds `FOO=bar`, `# comment`,
`BAZ=/tmp/x`, and the single bundle `b1` holds `{"FOO":"override"}`. -/
def scenarioWorld : World where
  file := some "FOO=bar\n# comment\nBAZ=/tmp/x".toList
  secretConfigs := "b1".toList
  getSecret := fun i =>
    if i = "b1".toList then some "\x7b\"FOO\":\"override\"\x7d".toList else none
  jsonParse := fun p =>
    if p = "\x7b\"FOO\":\"override\"\x7d".toList
    then some (.object [("FOO".toList, .string "override".toList)])
    else none
  range := List.reverse
  statOtherError := false
  createBlankFails := false
  openFails := false
  scanFails := false
  recreateFails := false
  writeFails := false
  statConsistent := by decide
  scanConsistent := by decide

/-- The target file does not exist and the fetch of the only bundle fails. -/
def absentFileWorld : World where
  file := none
  secretConfigs := "b1".toList
  getSecret := fun _ => none
  jsonParse := fun _ => none
  range := fun m => m
  statOtherError := false
  createBlankFails := false
  openFails := false
  scanFails := false
  recreateFails := false
  writeFails := false
  statConsistent := by decide
  scanConsistent := by decide

/-- The target file holds `A=1`; the bundle `b1` holds the payload `null` and
the bundle `b2` the payload `{"A":null}`. -/
def nullWorld : World where
  file := some "A=1".toList
  secretConfigs := "b1,b2".toList
  getSecret := fun i =>
    if i = "b1".toList then some "null".toList
    else if i = "b2".toList then some "\x7b\"A\":null\x7d".toList
    else none
  jsonParse := fun p =>
    if p = "null".toList then some .null
    else if p = "\x7b\"A\":null\x7d".toList then some (.object [("A".toList, .null)])
    else none
  range := fun m => m
  statOtherError := false
  createBlankFails := false
  openFails := false
  scanFails := false
  recreateFails := false
  writeFails := false
  statConsistent := by decide
  scanConsistent := by decide

/-- The target file holds `A=1`; the bundle `b1` holds `{"A":1}`, whose member
value is a number. -/
def numberWorld : World where
  file := some "A=1".toList
  secretConfigs := "b1".toList
  getSecret := fun i => if i = "b1".toList then some "\x7b\"A\":1\x7d".toList else none
  jsonParse := fun p =>
    if p = "\x7b\"A\":1\x7d".toList then some (.object [("A".toList, .number "1".toList)])
    else none
  range := fun m => m
  statOtherError := false
  createBlankFails := false
  openFails := false
  scanFails := false
  recreateFails := false
  writeFails := false
  statConsistent := by decide
  scanConsistent := by decide

/-- The scenario of the specification with a target file that can be read but
not recreated: the `os.Create` of line 162 fails. -/
def readOnlyWorld : World := { scenarioWorld with recreateFails := true }

/-- The scenario of the specification with a recreated file that cannot be
written to. -/
def fullDiskWorld : World := { scenarioWorld with writeFails := true }

/-- The target path cannot be resolved: the target does not exist and `os.Stat`
fails with "not a directory", so that no blank file is created and `os.Open`
fails; no bundle is configured and every fetch would fail. -/
def notDirWorld : World where
  file := none
  secretConfigs := []
  getSecret := fun _ => none
  jsonParse := fun _ => none
  range := fun m => m
  statOtherError := true
  createBlankFails := false
  openFails := true
  scanFails := false
  recreateFails := false
  writeFails := false
  statConsistent := by decide
  scanConsistent := by decide

/-- No bundle is configured, the target file holds `A=1`, and every fetch fails. -/
def emptyConfigWorld : World where
  file := some "A=1".toList
  secretConfigs := []
  getSecret := fun _ => none
  jsonParse := fun _ => none
  range := fun m => m
  statOtherError := false
  createBlankFails := false
  openFails := false
  scanFails := false
  recreateFails := false
  writeFails := false
  statConsistent := by decide
  scanConsistent := by decide

/-- The target file holds `A=1`; the bundle `b1` holds `{"A=x":"y"}`, whose only
key is `A=x`. -/
def injectingWorld : World where
  file := some "A=1".toList
  secretConfigs := "b1".toList
  getSecret := fun i =>
    if i = "b1".toList then some "\x7b\"A=x\":\"y\"\x7d".toList else none
  jsonParse := fun p =>
    if p = "\x7b\"A=x\":\"y\"\x7d".toList
    then some (.object [("A=x".toList, .string "y".toList)])
    else none
  range := fun m => m
  statOtherError := false
  createBlankFails := false
  openFails := false
  scanFails := false
  recreateFails := false
  writeFails := false
  statConsistent := by decide
  scanConsistent := by decide

/-- The target file holds `A=1` and `P=/tmp/x`; the bundle `b1` holds `{"B":"2"}`. -/
def rerunWorld : World where
  file := some "A=1\nP=/tmp/x".toList
  secretConfigs := "b1".toList
  getSecret := fun i =>
    if i = "b1".toList then some "\x7b\"B\":\"2\"\x7d".toList else none
  jsonParse := fun p =>
    if p = "\x7b\"B\":\"2\"\x7d".toList
    then some (.object [("B".toList, .string "2".toList)])
    else none
  range := fun m => m
  statOtherError := false
  createBlankFails := false
  openFails := false
  scanFails := false
  recreateFails := false
  writeFails := false
  statConsistent := by decide
  scanConsistent := by decide

/-! ## Lemmas on `split` and `joinEmpty` -/

theorem split_ne_nil (s : Str) (sep : Char) : split s sep ≠ [] := by
  cases s with
  | nil => simp [split]
  | cons c cs =>
    unfold split
    by_cases h : c = sep
    · simp [h]
    · simp only [h, if_false]
      cases split cs sep <;> simp

theorem split_headD (s : Str) (sep : Char) :
    (split s sep).headD [] = s.takeWhile (fun c => c != sep) := by
  induction s with
  | nil => simp [split]
  | cons c cs ih =>
    unfold split
    by_cases h : c = sep
    · simp [h]
    · simp only [h, if_false]
      have hne := split_ne_nil cs sep
      cases hs : split cs sep with
      | nil => exact absurd hs hne
      | cons p ps =>
        rw [hs] at ih
        simp only [List.headD_cons] at ih
        simp [List.takeWhile_cons, h, ih]

theorem joinEmpty_append (a b : List Str) : joinEmpty (a ++ b) = joinEmpty a ++ joinEmpty b := by
  induction a with
  | nil => simp [joinEmpty]
  | cons p ps ih => simp [joinEmpty, ih]

theorem joinEmpty_split (s : Str) (sep : Char) :
    joinEmpty (split s sep) = s.filter (fun c => c != sep) := by
  induction s with
  | nil => simp [split, joinEmpty]
  | cons c cs ih =>
    unfold split
    by_cases h : c = sep
    · simp [h, joinEmpty, ih]
    · simp only [h, if_false]
      have hne := split_ne_nil cs sep
      cases hs : split cs sep with
      | nil => exact absurd hs hne
      | cons p ps =>
        rw [hs] at ih
        simp only [joinEmpty] at ih
        simp [joinEmpty, List.filter_cons, h, ← ih]

theorem joinEmpty_tail_split (s : Str) (sep : Char) :
    joinEmpty (split s sep).tail =
      ((s.dropWhile (fun c => c != sep)).drop 1).filter (fun c => c != sep) := by
  induction s with
  | nil => simp [split, joinEmpty]
  | cons c cs ih =>
    unfold split
    by_cases h : c = sep
    · simp [h, joinEmpty_split]
    · simp only [h, if_false]
      have hne := split_ne_nil cs sep
      cases hs : split cs sep with
      | nil => exact absurd hs hne
      | cons p ps =>
        rw [hs] at ih
        simp only [List.tail_cons] at ih
        simp [List.dropWhile_cons, h, ih]

/-- What the loop body stores for a line that is not a comment. -/
theorem loadLine_data (m : EnvMap) (line : Str) (h : startsWith line '#' = false) :
    loadLine m line = m.set (beforeFirstEq line) (withoutEq (afterFirstEq line)) := by
  have hne := split_ne_nil line '='
  have hk : (split line '=' ++ [[]]).headD [] = beforeFirstEq line := by
    unfold beforeFirstEq
    cases hs : split line '=' with
    | nil => exact absurd hs hne
    | cons p ps => have := split_headD line '='; rw [hs] at this; simpa using this
  have hv : joinEmpty (split line '=' ++ [[]]).tail = withoutEq (afterFirstEq line) := by
    unfold withoutEq afterFirstEq
    rw [← joinEmpty_tail_split]
    cases hs : split line '=' with
    | nil => exact absurd hs hne
    | cons p ps => simp [joinEmpty_append, joinEmpty]
  unfold loadLine
  simp only [h, Bool.not_false, if_true]
  rw [hk, hv]

theorem loadLine_comment (m : EnvMap) (line : Str) (h : startsWith line '#' = true) :
    loadLine m line = m := by
  unfold loadLine
  simp [h]

/-! ## Lemmas on the map operations -/

namespace EnvMap

theorem get?_set (m : EnvMap) (k v k' : Str) :
    (m.set k v).get? k' = if k = k' then some v else m.get? k' := by
  induction m with
  | nil => simp [set, get?]
  | cons e rest ih =>
    obtain ⟨a, b⟩ := e
    unfold set
    by_cases h : a = k
    · subst h
      by_cases h' : a = k' <;> simp [get?, h']
    · simp only [h, if_false]
      by_cases h' : a = k'
      · subst h'
        have : ¬ k = a := fun e => h e.symm
        simp [get?, this]
      · simp [get?, h', ih]

theorem keys_set (m : EnvMap) (k v k' : Str) :
    k' ∈ (m.set k v).keys ↔ k' = k ∨ k' ∈ m.keys := by
  induction m with
  | nil => simp [set, keys]
  | cons e rest ih =>
    obtain ⟨a, b⟩ := e
    unfold set
    by_cases h : a = k
    · subst h
      simp [keys]
    · simp only [h, if_false]
      simp only [keys, List.map_cons, List.mem_cons] at ih ⊢
      rw [ih]
      tauto

theorem nodup_set (m : EnvMap) (k v : Str) (h : m.keys.Nodup) : (m.set k v).keys.Nodup := by
  induction m with
  | nil => simp [set, keys]
  | cons e rest ih =>
    obtain ⟨a, b⟩ := e
    simp only [keys, List.map_cons, List.nodup_cons] at h
    unfold set
    by_cases hk : a = k
    · subst hk
      simpa [keys] using h
    · simp only [hk, if_false]
      simp only [keys, List.map_cons, List.nodup_cons]
      refine ⟨?_, ih h.2⟩
      intro hmem
      have := (keys_set rest k v a).1 hmem
      rcases this with h1 | h1
      · exact hk h1
      · exact h.1 h1

theorem mem_of_get? (m : EnvMap) (k v : Str) (h : m.get? k = some v) : (k, v) ∈ m := by
  induction m with
  | nil => simp [get?] at h
  | cons e rest ih =>
    obtain ⟨a, b⟩ := e
    unfold get? at h
    by_cases hk : a = k
    · simp only [hk, if_true, Option.some.injEq] at h
      simp [hk, h]
    · simp only [hk, if_false] at h
      exact List.mem_cons_of_mem _ (ih h)

theorem get?_eq_none (m : EnvMap) (k : Str) : m.get? k = none ↔ k ∉ m.keys := by
  induction m with
  | nil => simp [get?, keys]
  | cons e rest ih =>
    obtain ⟨a, b⟩ := e
    unfold get?
    by_cases hk : a = k
    · simp [hk, keys]
    · simp only [hk, if_false, ih, keys, List.map_cons, List.mem_cons, not_or]
      constructor
      · intro h; exact ⟨fun e => hk e.symm, h⟩
      · intro h; exact h.2

theorem get?_of_mem (m : EnvMap) (k v : Str) (hnd : m.keys.Nodup) (h : (k, v) ∈ m) :
    m.get? k = some v := by
  induction m with
  | nil => simp at h
  | cons e rest ih =>
    obtain ⟨a, b⟩ := e
    simp only [keys, List.map_cons, List.nodup_cons] at hnd
    unfold get?
    rcases List.mem_cons.1 h with h1 | h1
    · simp only [Prod.mk.injEq] at h1
      simp [h1.1, h1.2]
    · have hka : a ≠ k := by
        intro e
        apply hnd.1
        rw [e]
        exact List.mem_map.2 ⟨(k, v), h1, rfl⟩
      simp only [hka, if_false]
      exact ih hnd.2 h1

/-- Lookup does not depend on the order of the entries. -/
theorem get?_perm (m m' : EnvMap) (hnd : m.keys.Nodup) (hp : m'.Perm m) (k : Str) :
    m'.get? k = m.get? k := by
  have hnd' : m'.keys.Nodup := (List.Perm.map Prod.fst hp).nodup_iff.2 hnd
  cases h : m.get? k with
  | none =>
    rw [get?_eq_none] at h ⊢
    intro hm
    exact h ((List.Perm.map Prod.fst hp).mem_iff.1 hm)
  | some v =>
    exact get?_of_mem m' k v hnd' (hp.mem_iff.2 (mem_of_get? m k v h))

/-- Lookup after a run of assignments: the last assignment to the key wins,
and a key that is not assigned keeps its value. -/
theorem get?_foldl_set (l : List (Str × Str)) (m : EnvMap) (k : Str) :
    (l.foldl (fun m kv => m.set kv.1 kv.2) m).get? k =
      match get? l.reverse k with
      | some v => some v
      | none => m.get? k := by
  induction l generalizing m with
  | nil => simp [get?]
  | cons e rest ih =>
    obtain ⟨a, b⟩ := e
    simp only [List.foldl_cons, List.reverse_cons]
    rw [ih]
    have happ : ∀ (x y : EnvMap), get? (x ++ y) k =
        match get? x k with
        | some v => some v
        | none => get? y k := by
      intro x y
      induction x with
      | nil => simp [get?]
      | cons e' r ih' =>
        obtain ⟨c, d⟩ := e'
        by_cases hc : c = k <;> simp [get?, hc, ih']
    rw [happ]
    cases get? rest.reverse k with
    | some v => rfl
    | none =>
      simp only [get?_set]
      by_cases hk : a = k <;> simp [get?, hk]

theorem nodup_foldl_set (l : List (Str × Str)) (m : EnvMap) (h : m.keys.Nodup) :
    (l.foldl (fun m kv => m.set kv.1 kv.2) m).keys.Nodup := by
  induction l generalizing m with
  | nil => simpa using h
  | cons e rest ih => exact ih _ (nodup_set m e.1 e.2 h)

/-- Assigning the entries of a map with distinct keys, in any order. -/
theorem get?_foldl_set_perm (sec l : EnvMap) (hnd : sec.keys.Nodup) (hp : l.Perm sec)
    (m : EnvMap) (k : Str) :
    (l.foldl (fun m kv => m.set kv.1 kv.2) m).get? k =
      match sec.get? k with
      | some v => some v
      | none => m.get? k := by
  rw [get?_foldl_set]
  have : get? l.reverse k = get? sec k :=
    get?_perm sec l.reverse hnd ((List.reverse_perm l).trans hp) k
  rw [this]

end EnvMap

/-! ## Decoding and overlaying -/

theorem unmarshalObject_nodup (members : List (Str × JValue)) (sec sec' : EnvMap)
    (h : sec.keys.Nodup) (hu : unmarshalObject sec members = some sec') : sec'.keys.Nodup := by
  induction members generalizing sec with
  | nil =>
    simp only [unmarshalObject, Option.some.injEq] at hu
    exact hu ▸ h
  | cons e rest ih =>
    obtain ⟨k, v⟩ := e
    unfold unmarshalObject at hu
    cases hs : storeString v with
    | none => simp [hs] at hu
    | some x =>
      simp only [hs] at hu
      exact ih _ (EnvMap.nodup_set sec k x h) hu

theorem unmarshal_nodup (j : JValue) (sec : EnvMap) (hu : unmarshal j = some sec) :
    sec.keys.Nodup := by
  cases j with
  | null =>
    simp only [unmarshal, Option.some.injEq] at hu
    subst hu
    simp [EnvMap.keys]
  | object members =>
    simp only [unmarshal] at hu
    exact unmarshalObject_nodup members [] sec (by simp [EnvMap.keys]) hu
  | bool b => simp [unmarshal] at hu
  | number n => simp [unmarshal] at hu
  | string x => simp [unmarshal] at hu
  | array xs => simp [unmarshal] at hu

theorem decodePayload_nodup (w : World) (s : Str) (sec : EnvMap)
    (h : decodePayload w s = some sec) : sec.keys.Nodup := by
  unfold decodePayload at h
  cases hj : w.jsonParse s with
  | none => simp [hj] at h
  | some j =>
    simp only [hj] at h
    exact unmarshal_nodup j sec h

/-- The loop body succeeds exactly on the payloads that decode, and then
assigns the decoded entries. -/
theorem overlay_of_decode (w : World) (m : EnvMap) (s : Str) (sec : EnvMap)
    (h : decodePayload w s = some sec) :
    overlay w m s = .ok ((w.range sec).foldl (fun m kv => m.set kv.1 kv.2) m) := by
  unfold decodePayload at h
  unfold overlay
  cases hj : w.jsonParse s with
  | none => simp [hj] at h
  | some j =>
    simp only [hj] at h
    simp [h]

theorem overlay_of_not_decode (w : World) (m : EnvMap) (s : Str)
    (h : decodePayload w s = none) :
    overlay w m s = .error .jsonSyntax ∨ overlay w m s = .error .jsonType := by
  unfold decodePayload at h
  unfold overlay
  cases hj : w.jsonParse s with
  | none => simp
  | some j =>
    simp only [hj] at h
    simp [h]

theorem expectedValue_cons (m m1 sec : EnvMap) (rest : List EnvMap) (k : Str)
    (h1 : m1.get? k = match sec.get? k with
      | some v => some v
      | none => m.get? k) :
    expectedValue m (sec :: rest) k = expectedValue m1 rest k := by
  unfold expectedValue
  simp only [List.reverse_cons, List.find?_append]
  cases hf : List.find? (fun b => (EnvMap.get? b k).isSome) rest.reverse with
  | some b => simp
  | none =>
    simp only [Option.none_or, List.find?_cons, List.find?_nil]
    rw [h1]
    cases hs : sec.get? k with
    | some v => simp [hs]
    | none => simp

/-- The overlay loop on identifiers whose bundles all decode. -/
theorem overlayAll_decoded (w : World) (hr : w.RangeOk) (ids : List Str) :
    ∀ (m : EnvMap) (bundles : List EnvMap),
      ids.map (fetchBundle w) = bundles.map some →
      ∃ m', overlayAll w m ids = .ok m' ∧ (m.keys.Nodup → m'.keys.Nodup) ∧
        ∀ k, m'.get? k = expectedValue m bundles k := by
  induction ids with
  | nil =>
    intro m bundles hb
    cases bundles with
    | nil => exact ⟨m, rfl, id, fun k => by simp [expectedValue]⟩
    | cons b bs => simp at hb
  | cons i rest ih =>
    intro m bundles hb
    cases bundles with
    | nil => simp at hb
    | cons sec bs =>
      simp only [List.map_cons, List.cons.injEq] at hb
      obtain ⟨hsec, hrest⟩ := hb
      unfold fetchBundle at hsec
      cases hg : w.getSecret i with
      | none => simp [hg] at hsec
      | some s =>
        simp only [hg] at hsec
        have hnd := decodePayload_nodup w s sec hsec
        obtain ⟨m', hm', hnd', hget⟩ :=
          ih ((w.range sec).foldl (fun m kv => m.set kv.1 kv.2) m) bs hrest
        refine ⟨m', ?_, ?_, ?_⟩
        · unfold overlayAll
          simp only [hg, overlay_of_decode w m s sec hsec]
          exact hm'
        · intro h
          exact hnd' (EnvMap.nodup_foldl_set _ m h)
        · intro k
          rw [hget k]
          exact (expectedValue_cons m _ sec bs k
            (EnvMap.get?_foldl_set_perm sec (w.range sec) hnd (hr sec) m k)).symm

/-! ## Serializing and writing -/

theorem renderEntry_eq (k v : Str) : renderEntry k v = k ++ ['='] ++ quoted v := by
  unfold renderEntry quoted
  cases v with
  | nil => simp [startsWith]
  | cons c cs =>
    by_cases h : c = '/'
    · subst h
      simp [startsWith]
    · simp [startsWith, h]

theorem serialize_append (a b : List (Str × Str)) :
    serialize (a ++ b) = serialize a ++ serialize b := by
  induction a with
  | nil => simp [serialize]
  | cons e rest ih =>
    obtain ⟨k, v⟩ := e
    by_cases hk : k = [] <;> simp [serialize, hk, ih]

theorem serialize_eq_map_filter (entries : List (Str × Str)) :
    serialize entries =
      (entries.filter (fun e => decide (e.1 ≠ []))).map (fun e => renderEntry e.1 e.2) := by
  induction entries with
  | nil => simp [serialize]
  | cons e rest ih =>
    obtain ⟨k, v⟩ := e
    by_cases hk : k = [] <;> simp [serialize, hk, ih]

theorem mem_serialize (entries : List (Str × Str)) (l : Str) :
    l ∈ serialize entries ↔ ∃ k v, (k, v) ∈ entries ∧ k ≠ [] ∧ l = renderEntry k v := by
  rw [serialize_eq_map_filter]
  simp only [List.mem_map, List.mem_filter, decide_eq_true_eq, Prod.exists]
  constructor
  · rintro ⟨k, v, ⟨hm, hk⟩, rfl⟩
    exact ⟨k, v, hm, hk, rfl⟩
  · rintro ⟨k, v, hm, hk, rfl⟩
    exact ⟨k, v, ⟨hm, hk⟩, rfl⟩

/-- With a working file underneath, the write loop never reaches `log.Fatalf`
and every line ends up either in the file or in the buffer. -/
theorem writeLoop_sinkOk (lines : List Str) :
    ∀ b : Writer, b.sinkOk = true → b.err = false →
      (writeLoop b lines).2 = false ∧ (writeLoop b lines).1.sinkOk = true ∧
      (writeLoop b lines).1.err = false ∧
      (writeLoop b lines).1.written ++ (writeLoop b lines).1.buf =
        b.written ++ b.buf ++ fileText lines := by
  induction lines with
  | nil =>
    intro b hs he
    simp [writeLoop, hs, he, fileText, joinEmpty]
  | cons line rest ih =>
    intro b hs he
    have hstep : (b.writeString (line ++ ['\n'])).sinkOk = true ∧
        (b.writeString (line ++ ['\n'])).err = false ∧
        (b.writeString (line ++ ['\n'])).written ++ (b.writeString (line ++ ['\n'])).buf =
          b.written ++ b.buf ++ (line ++ ['\n']) := by
      unfold Writer.writeString
      simp only [he, hs, Bool.false_eq_true, if_false, if_true]
      split <;> simp [hs, he]
    obtain ⟨h1, h2, h3⟩ := hstep
    obtain ⟨i1, i2, i3, i4⟩ := ih _ h1 h2
    unfold writeLoop
    simp only [h2, Bool.false_eq_true, if_false]
    refine ⟨i1, i2, i3, ?_⟩
    rw [i4, h3]
    simp [fileText, joinEmpty]

theorem flush_sinkOk (b : Writer) (hs : b.sinkOk = true) (he : b.err = false) :
    b.flush.written = b.written ++ b.buf := by
  unfold Writer.flush
  simp only [he, hs, Bool.false_eq_true, if_false, if_true]
  split
  · rename_i h
    simp [h]
  · rfl

/-- The write step when nothing fails: the file holds exactly the lines. -/
theorem writeOut_ok (w : World) (content : Str) (lines : List Str)
    (hrec : w.recreateFails = false) (hwr : w.writeFails = false) :
    writeOut w content lines = { outcome := .success, file := some (fileText lines) } := by
  have hb := writeLoop_sinkOk lines
    { sinkOk := !w.recreateFails && !w.writeFails, written := [], buf := [], err := false }
    (by simp [hrec, hwr]) rfl
  obtain ⟨h1, h2, h3, h4⟩ := hb
  unfold writeOut
  simp only []
  generalize hwl : writeLoop
    { sinkOk := !w.recreateFails && !w.writeFails, written := [], buf := [], err := false }
    lines = r at h1 h2 h3 h4
  obtain ⟨b, f⟩ := r
  simp only at h1 h2 h3 h4
  subst h1
  simp only [hrec, Bool.false_eq_true, if_false, List.nil_append]
  rw [flush_sinkOk b h2 h3, h4]
  simp

/-! ## Loading -/

theorem loadLine_nodup (m : EnvMap) (line : Str) (h : m.keys.Nodup) :
    (loadLine m line).keys.Nodup := by
  unfold loadLine
  split
  · exact EnvMap.nodup_set _ _ _ h
  · exact h

theorem loadLines_nodup (lines : List Str) (m : EnvMap) (h : m.keys.Nodup) :
    (loadLines m lines).keys.Nodup := by
  induction lines generalizing m with
  | nil => simpa [loadLines] using h
  | cons l rest ih =>
    simp only [loadLines, List.foldl_cons]
    exact ih _ (loadLine_nodup m l h)

theorem load_nodup (text : Str) : (load text).keys.Nodup :=
  loadLines_nodup _ [] (by simp [EnvMap.keys])

theorem loadLines_append (a b : List Str) (m : EnvMap) :
    loadLines m (a ++ b) = loadLines (loadLines m a) b := by
  simp [loadLines, List.foldl_append]

/-! ## Aborted runs -/

/-- A bundle that cannot be fetched or decoded makes the overlay loop fail. -/
theorem overlayAll_fails (w : World) (id : Str) (hfail : fetchBundle w id = none)
    (ids : List Str) (hid : id ∈ ids) :
    ∀ m : EnvMap, ∃ e, overlayAll w m ids = .error e := by
  induction ids with
  | nil => simp at hid
  | cons i rest ih =>
    intro m
    unfold overlayAll
    cases hg : w.getSecret i with
    | none => exact ⟨_, rfl⟩
    | some s =>
      simp only []
      cases ho : overlay w m s with
      | error e => exact ⟨e, rfl⟩
      | ok m1 =>
        simp only []
        rcases List.mem_cons.1 hid with h1 | h1
        · exfalso
          subst h1
          unfold fetchBundle at hfail
          simp only [hg] at hfail
          rcases overlay_of_not_decode w m s hfail with h2 | h2 <;> simp [h2] at ho
        · exact ih h1 m1

/-- The surroundings of a later run that starts from the file the world already
holds are the world itself. -/
theorem World.after_self (w : World) : w.after w.file = w := by
  obtain ⟨file, cfg, gs, jp, rg, st, cb, op, sc, rc, wf, h1, h2⟩ := w
  have ho : (op || (file.isNone && st)) = op := by
    cases file with
    | some c => simp
    | none =>
      cases st with
      | false => simp
      | true => simp [h1 rfl rfl]
  have hs : (sc || tooLongFile file) = sc := by
    cases ht : tooLongFile file with
    | false => simp
    | true => simp [h2 ht]
  simp only [World.after, ho, hs]

/-- The first of several consecutive runs is the run in the world itself. -/
theorem rerun_one (w : World) : rerun w 1 = (main w).file := by
  show (main (w.after w.file)).file = (main w).file
  rw [World.after_self]

/-- A file on which the scanner does not fail has no line that is too long. -/
theorem World.tooLong_eq_false (w : World) (content : Str) (hfile : w.file = some content)
    (hscan : w.scanFails = false) : tooLong content = false := by
  cases h : tooLong content with
  | false => rfl
  | true =>
    have := w.scanConsistent (by simp [tooLongFile, hfile, h])
    rw [hscan] at this
    exact absurd this (by decide)

/-- The run once the load step has succeeded on the content of the target file
(the empty content of a blank file just created, when the target did not exist). -/
theorem main_loaded (w : World) (content : Str)
    (hstate : w.file = some content ∨
      (w.file = none ∧ w.statOtherError = false ∧ w.createBlankFails = false ∧ content = []))
    (hopen : w.openFails = false) (hscan : w.scanFails = false) :
    main w =
      match overlayAll w (load content) (split w.secretConfigs ',') with
      | .error e => { outcome := .panicked e, file := some content }
      | .ok envData => writeOut w content (serialize (w.range envData)) := by
  have htl : tooLong content = false := by
    rcases hstate with h | ⟨_, _, _, h⟩
    · exact w.tooLong_eq_false content h hscan
    · subst h
      rfl
  unfold main load
  rcases hstate with h | ⟨h1, h2, h3, h4⟩
  · simp [h, hopen, hscan, htl]
  · subst h4
    simp [h1, h2, h3, hopen, hscan, htl]

/-- A run that is stopped before the overlay loop panics and leaves the target
file as the load step left it. -/
theorem main_load_fails (w : World)
    (h : ¬ (w.file = none → w.statOtherError = false ∧ w.createBlankFails = false) ∨
      w.openFails = true ∨ w.scanFails = true) :
    (∃ e, (main w).outcome = .panicked e) ∧ (main w).file = fileAfterAbort w := by
  unfold main fileAfterAbort
  cases hf : w.file with
  | none =>
    cases hst : w.statOtherError with
    | true => exact ⟨⟨.openFile, by simp⟩, by simp⟩
    | false =>
      cases hc : w.createBlankFails with
      | true => exact ⟨⟨.createBlank, by simp⟩, by simp⟩
      | false =>
        cases ho : w.openFails with
        | true => exact ⟨⟨.openFile, by simp⟩, by simp⟩
        | false =>
          cases hs : w.scanFails with
          | true => exact ⟨⟨.scan, by simp⟩, by simp⟩
          | false =>
            exfalso
            rcases h with h | h | h
            · exact h (fun _ => ⟨hst, hc⟩)
            · rw [ho] at h
              exact absurd h (by decide)
            · rw [hs] at h
              exact absurd h (by decide)
  | some c =>
    cases ho : w.openFails with
    | true => exact ⟨⟨.openFile, by simp⟩, by simp⟩
    | false =>
      cases hs : w.scanFails with
      | true => exact ⟨⟨.scan, by simp⟩, by simp⟩
      | false =>
        exfalso
        rcases h with h | h | h
        · exact h (fun hn => by rw [hf] at hn; exact absurd hn (by simp))
        · rw [ho] at h
          exact absurd h (by decide)
        · rw [hs] at h
          exact absurd h (by decide)

/-- A run in which the overlay loop fails, or which is stopped before it,
panics and leaves the target file as the load step left it. -/
theorem main_of_overlay_error (w : World)
    (h : ∀ m : EnvMap, ∃ e, overlayAll w m (split w.secretConfigs ',') = .error e) :
    (∃ e, (main w).outcome = .panicked e) ∧ (main w).file = fileAfterAbort w := by
  by_cases hload : (w.file = none → w.statOtherError = false ∧ w.createBlankFails = false) ∧
      w.openFails = false ∧ w.scanFails = false
  · obtain ⟨h1, hopen, hscan⟩ := hload
    cases hf : w.file with
    | none =>
      obtain ⟨hst, hc⟩ := h1 hf
      obtain ⟨e, he⟩ := h (load [])
      rw [main_loaded w [] (Or.inr ⟨hf, hst, hc, rfl⟩) hopen hscan, he]
      exact ⟨⟨e, rfl⟩, by simp [fileAfterAbort, hf, hst, hc]⟩
    | some c =>
      obtain ⟨e, he⟩ := h (load c)
      rw [main_loaded w c (Or.inl hf) hopen hscan, he]
      exact ⟨⟨e, rfl⟩, by simp [fileAfterAbort, hf]⟩
  · apply main_load_fails
    by_contra hn
    simp only [not_or, not_not] at hn
    apply hload
    refine ⟨hn.1, ?_, ?_⟩
    · cases ho : w.openFails with
      | false => rfl
      | true => exact absurd ho hn.2.1
    · cases hs : w.scanFails with
      | false => rfl
      | true => exact absurd hs hn.2.2

theorem unmarshalObject_not_accepted (members : List (Str × JValue)) :
    ∀ sec : EnvMap, members.all (fun kv => memberAccepted kv.2) = false →
      unmarshalObject sec members = none := by
  induction members with
  | nil =>
    intro sec h
    exact absurd h (by decide)
  | cons e rest ih =>
    intro sec h
    obtain ⟨k, v⟩ := e
    unfold unmarshalObject
    cases hv : storeString v with
    | none => rfl
    | some x =>
      simp only []
      apply ih
      have hacc : memberAccepted v = true := by
        cases v <;> simp [storeString] at hv <;> rfl
      simpa only [List.all_cons, hacc, Bool.true_and] using h

theorem unmarshal_not_accepted (j : JValue) (h : Accepted j = false) : unmarshal j = none := by
  cases j with
  | null => simp [Accepted] at h
  | object members =>
    simp only [Accepted] at h
    exact unmarshalObject_not_accepted members [] h
  | bool b => rfl
  | number n => rfl
  | string x => rfl
  | array xs => rfl

/-! ## Lines of a text -/

theorem rawLines_cons_ne_nil (c : Char) (cs : Str) : rawLines (c :: cs) ≠ [] := by
  unfold rawLines
  by_cases h : c = '\n'
  · simp [h]
  · simp only [h, if_false]
    cases rawLines cs <;> simp

theorem rawLines_cons_ne (c : Char) (cs : Str) (hc : ¬ c = '\n') :
    rawLines (c :: cs) =
      match rawLines cs with
      | [] => [[c]]
      | l :: ls => (c :: l) :: ls := by
  simp only [rawLines, hc, if_false]

/-- A text that ends at a line boundary is scanned independently of what follows it. -/
theorem rawLines_append_boundary (t1 t2 : Str) (h : t1 = [] ∨ t1.getLast? = some '\n') :
    rawLines (t1 ++ t2) = rawLines t1 ++ rawLines t2 := by
  induction t1 with
  | nil => simp [rawLines]
  | cons c cs ih =>
    have hlast : (c :: cs).getLast? = some '\n' := by
      rcases h with h | h
      · simp at h
      · exact h
    cases cs with
    | nil =>
      simp only [List.getLast?_singleton, Option.some.injEq] at hlast
      subst hlast
      simp [rawLines]
    | cons d ds =>
      rw [List.getLast?_cons_cons] at hlast
      have ih' := ih (Or.inr hlast)
      have hne := rawLines_cons_ne_nil d ds
      by_cases hc : c = '\n'
      · subst hc
        simp only [List.cons_append] at ih' ⊢
        simp only [rawLines, if_true] at ih' ⊢
        rw [ih']
        simp
      · simp only [List.cons_append] at ih' ⊢
        rw [rawLines_cons_ne c _ hc, rawLines_cons_ne c _ hc, ih']
        cases hr : rawLines (d :: ds) with
        | nil => exact absurd hr hne
        | cons l ls => simp

theorem rawLines_line (l rest : Str) (h : '\n' ∉ l) :
    rawLines (l ++ '\n' :: rest) = l :: rawLines rest := by
  induction l with
  | nil => simp [rawLines]
  | cons c cs ih =>
    simp only [List.mem_cons, not_or] at h
    have hc : ¬ c = '\n' := fun e => h.1 e.symm
    simp only [List.cons_append]
    rw [rawLines_cons_ne c _ hc, ih h.2]

theorem startsWith_dropCR (c : Str) (p : Char) (hp : p ≠ '\r') (h : startsWith c p = true) :
    startsWith (dropCR c) p = true := by
  cases c with
  | nil => simp [startsWith] at h
  | cons a as =>
    simp only [startsWith, decide_eq_true_eq] at h
    subst h
    cases as with
    | nil => simp [dropCR, hp, startsWith]
    | cons b bs => simp [dropCR, startsWith]

theorem startsWith_beforeFirstEq (l : Str) (p : Char)
    (h : startsWith (beforeFirstEq l) p = true) : startsWith l p = true := by
  cases l with
  | nil => simp [beforeFirstEq, startsWith] at h
  | cons c cs =>
    unfold beforeFirstEq at h
    by_cases hc : c = '='
    · simp [List.takeWhile_cons, hc, startsWith] at h
    · simpa [List.takeWhile_cons, hc, startsWith] using h

/-- Where the keys of a loaded map come from. -/
theorem mem_keys_loadLines (lines : List Str) (m : EnvMap) (k : Str)
    (h : k ∈ (loadLines m lines).keys) :
    k ∈ m.keys ∨ ∃ l ∈ lines, startsWith l '#' = false ∧ k = beforeFirstEq l := by
  induction lines generalizing m with
  | nil => exact Or.inl (by simpa [loadLines] using h)
  | cons l rest ih =>
    simp only [loadLines, List.foldl_cons] at h
    rcases ih (loadLine m l) h with h1 | ⟨l', hl', h2⟩
    · cases hs : startsWith l '#' with
      | true =>
        rw [loadLine_comment m l hs] at h1
        exact Or.inl h1
      | false =>
        rw [loadLine_data m l hs, EnvMap.keys_set] at h1
        rcases h1 with h1 | h1
        · exact Or.inr ⟨l, List.mem_cons_self _ _, hs, h1⟩
        · exact Or.inl h1
    · exact Or.inr ⟨l', List.mem_cons_of_mem _ hl', h2⟩

theorem loadLines_remove_comment (before after : List Str) (c : Str) (m : EnvMap)
    (hc : startsWith c '#' = true) :
    loadLines m (before ++ c :: after) = loadLines m (before ++ after) := by
  rw [loadLines_append, loadLines_append]
  simp only [loadLines, List.foldl_cons]
  rw [loadLine_comment _ c hc]

/-- Loading lines that are all comments or empty. -/
theorem loadLines_comment_or_blank (lines : List Str)
    (h : ∀ l ∈ lines, startsWith l '#' = true ∨ l = []) :
    loadLines [] lines = (if [] ∈ lines then [([], [])] else []) ∧
    loadLines [([], [])] lines = [([], [])] := by
  induction lines with
  | nil => simp [loadLines]
  | cons l rest ih =>
    have ih' := ih (fun x hx => h x (List.mem_cons_of_mem _ hx))
    simp only [loadLines, List.foldl_cons] at ih' ⊢
    rcases h l (List.mem_cons_self _ _) with hl | hl
    · have hne : l ≠ [] := by
        intro e
        rw [e] at hl
        simp [startsWith] at hl
      rw [loadLine_comment _ l hl, loadLine_comment _ l hl]
      refine ⟨?_, ih'.2⟩
      rw [ih'.1]
      simp [Ne.symm hne]
    · subst hl
      have h1 : loadLine [] [] = [([], [])] := by decide
      have h2 : loadLine [([], [])] [] = [([], [])] := by decide
      rw [h1, h2]
      exact ⟨by simp [ih'.2], ih'.2⟩

/-! ## Reading back what was written -/

theorem EnvMap.mem_set (m : EnvMap) (k v : Str) (e : Str × Str) (h : e ∈ m.set k v) :
    e = (k, v) ∨ e ∈ m := by
  induction m with
  | nil => simpa [EnvMap.set] using h
  | cons x rest ih =>
    obtain ⟨a, b⟩ := x
    unfold EnvMap.set at h
    by_cases hk : a = k
    · simp only [hk, if_true, List.mem_cons] at h
      rcases h with h | h
      · exact Or.inl h
      · exact Or.inr (List.mem_cons_of_mem _ h)
    · simp only [hk, if_false, List.mem_cons] at h
      rcases h with h | h
      · exact Or.inr (h ▸ List.mem_cons_self _ _)
      · rcases ih h with h1 | h1
        · exact Or.inl h1
        · exact Or.inr (List.mem_cons_of_mem _ h1)

theorem EnvMap.get?_map_value (f : Str → Str) (m : EnvMap) (k : Str) :
    EnvMap.get? (m.map (fun e => (e.1, f e.2))) k = (EnvMap.get? m k).map f := by
  induction m with
  | nil => simp [EnvMap.get?]
  | cons x rest ih =>
    obtain ⟨a, b⟩ := x
    by_cases hk : a = k <;> simp [EnvMap.get?, hk, ih]

theorem rawLines_no_newline (t : Str) : ∀ l ∈ rawLines t, '\n' ∉ l := by
  induction t with
  | nil => simp [rawLines]
  | cons c cs ih =>
    intro l hl
    by_cases hc : c = '\n'
    · simp only [rawLines, hc, if_true, List.mem_cons] at hl
      rcases hl with hl | hl
      · simp [hl]
      · exact ih l hl
    · rw [rawLines_cons_ne c cs hc] at hl
      cases hr : rawLines cs with
      | nil =>
        simp only [hr, List.mem_singleton] at hl
        subst hl
        simpa using fun e => hc e.symm
      | cons x xs =>
        simp only [hr, List.mem_cons] at hl
        rcases hl with hl | hl
        · subst hl
          have hx := ih x (by simp [hr])
          simp only [List.mem_cons, not_or]
          exact ⟨fun e => hc e.symm, hx⟩
        · exact ih l (by simp [hr, hl])

theorem mem_dropCR (s : Str) (x : Char) (h : x ∈ dropCR s) : x ∈ s := by
  induction s with
  | nil => simp [dropCR] at h
  | cons c cs ih =>
    cases cs with
    | nil =>
      by_cases hc : c = '\r'
      · simp [dropCR, hc] at h
      · simpa [dropCR, hc] using h
    | cons d ds =>
      simp only [dropCR, List.mem_cons] at h
      rcases h with h | h
      · simp [h]
      · exact List.mem_cons_of_mem _ (ih h)

theorem scanLines_no_newline (t : Str) : ∀ l ∈ scanLines t, '\n' ∉ l := by
  intro l hl hmem
  unfold scanLines at hl
  obtain ⟨r, hr, rfl⟩ := List.mem_map.1 hl
  exact rawLines_no_newline t r hr (mem_dropCR r _ hmem)

theorem dropCR_eq_self (s : Str) (h : s.getLast? ≠ some '\r') : dropCR s = s := by
  induction s with
  | nil => rfl
  | cons c cs ih =>
    cases cs with
    | nil =>
      have hc : ¬ c = '\r' := by simpa using h
      simp [dropCR, hc]
    | cons d ds =>
      rw [List.getLast?_cons_cons] at h
      simp [dropCR, ih h]

theorem dropCR_append (a b : Str) (hb : b ≠ []) : dropCR (a ++ b) = a ++ dropCR b := by
  induction a with
  | nil => rfl
  | cons c cs ih =>
    cases hcs : cs ++ b with
    | nil =>
      have : b = [] := (List.append_eq_nil.1 hcs).2
      exact absurd this hb
    | cons d ds =>
      rw [hcs] at ih
      simp only [List.cons_append, hcs, dropCR, ih]

theorem dropCR_quoted (v : Str) (h : v.head? = some '/' → v.getLast? ≠ some '\r') :
    dropCR (quoted v) = quoted v := by
  by_cases hv : v.head? = some '/'
  · have hq : quoted v = v := by
      cases v with
      | nil => simp at hv
      | cons c cs =>
        simp only [List.head?_cons, Option.some.injEq] at hv
        subst hv
        rfl
    rw [hq]
    exact dropCR_eq_self v (h hv)
  · have hq : quoted v = ('"' :: v) ++ ['"'] := by
      cases v with
      | nil => rfl
      | cons c cs =>
        have hc : ¬ c = '/' := by simpa using hv
        unfold quoted
        split
        · rename_i heq
          simp only [List.cons.injEq] at heq
          exact absurd heq.1 hc
        · simp
    rw [hq, dropCR_append _ _ (by simp)]
    simp [dropCR]

theorem quoted_ne_nil (v : Str) : quoted v ≠ [] := by
  unfold quoted
  split <;> simp

theorem not_mem_quoted (v : Str) (x : Char) (hx : x ≠ '"') (h : x ∉ v) : x ∉ quoted v := by
  unfold quoted
  split
  · exact h
  · simp only [List.mem_append, List.mem_singleton, not_or]
    exact ⟨⟨hx, h⟩, hx⟩

/-- The entry stored for a data line without line feed and with a non-empty key is clean. -/
theorem cleanEntry_of_line (l : Str) (hnl : '\n' ∉ l) (hs : startsWith l '#' = false)
    (hk : beforeFirstEq l ≠ []) :
    CleanEntry (beforeFirstEq l, withoutEq (afterFirstEq l)) := by
  refine ⟨hk, ?_, ?_, ?_, ?_, ?_⟩
  · cases h : startsWith (beforeFirstEq l) '#' with
    | false => rfl
    | true =>
      rw [startsWith_beforeFirstEq l '#' h] at hs
      exact absurd hs (by decide)
  · intro h
    have := List.mem_takeWhile_imp h
    simp at this
  · intro h
    exact hnl ((List.takeWhile_sublist _).subset h)
  · intro h
    have := (List.mem_filter.1 h).2
    simp at this
  · intro h
    have h1 := List.mem_of_mem_filter h
    have h2 := List.mem_of_mem_drop h1
    exact hnl ((List.dropWhile_sublist _).subset h2)

theorem loadLines_clean (lines : List Str) (m : EnvMap) (hm : ∀ e ∈ m, CleanEntry e)
    (hl : ∀ l ∈ lines, '\n' ∉ l ∧ (startsWith l '#' = false → beforeFirstEq l ≠ [])) :
    ∀ e ∈ loadLines m lines, CleanEntry e := by
  induction lines generalizing m with
  | nil => simpa [loadLines] using hm
  | cons l rest ih =>
    simp only [loadLines, List.foldl_cons]
    apply ih
    · intro e he
      cases hs : startsWith l '#' with
      | true =>
        rw [loadLine_comment m l hs] at he
        exact hm e he
      | false =>
        rw [loadLine_data m l hs] at he
        have hl' := hl l (List.mem_cons_self _ _)
        rcases EnvMap.mem_set m _ _ e he with h1 | h1
        · rw [h1]
          exact cleanEntry_of_line l hl'.1 hs (hl'.2 hs)
        · exact hm e h1
    · intro x hx
      exact hl x (List.mem_cons_of_mem _ hx)

/-- Reading back the line written for a clean entry assigns the quoted value to its key. -/
theorem loadLine_renderEntry (m : EnvMap) (k v : Str) (hc : CleanEntry (k, v)) :
    loadLine m (renderEntry k v) = m.set k (quoted v) := by
  obtain ⟨hk, hs, hke, _, hve, _⟩ := hc
  simp only at hk hs hke hve
  have hpos : ∀ a ∈ k, (fun c => c != '=') a = true := by
    intro a ha
    have : a ≠ '=' := fun e => hke (e ▸ ha)
    simpa using this
  rw [renderEntry_eq]
  have hstart : startsWith (k ++ ['='] ++ quoted v) '#' = false := by
    cases k with
    | nil => exact absurd rfl hk
    | cons c cs => simpa [startsWith] using hs
  rw [loadLine_data _ _ hstart]
  have h1 : beforeFirstEq (k ++ ['='] ++ quoted v) = k := by
    unfold beforeFirstEq
    rw [List.append_assoc, List.takeWhile_append_of_pos hpos]
    simp [List.takeWhile_cons]
  have h2 : afterFirstEq (k ++ ['='] ++ quoted v) = quoted v := by
    unfold afterFirstEq
    rw [List.append_assoc, List.dropWhile_append_of_pos hpos]
    simp [List.dropWhile_cons]
  have h3 : withoutEq (quoted v) = quoted v := by
    unfold withoutEq
    rw [List.filter_eq_self]
    intro a ha
    have : a ≠ '=' := fun e => not_mem_quoted v '=' (by decide) hve (e ▸ ha)
    simpa using this
  rw [h1, h2, h3]

theorem not_mem_renderEntry (k v : Str) (hc : CleanEntry (k, v)) : '\n' ∉ renderEntry k v := by
  obtain ⟨_, _, _, hkn, _, hvn⟩ := hc
  simp only at hkn hvn
  rw [renderEntry_eq]
  simp only [List.mem_append, List.mem_singleton, not_or]
  exact ⟨⟨hkn, by decide⟩, not_mem_quoted v '\n' (by decide) hvn⟩

theorem dropCR_renderEntry (k v : Str) (h : v.head? = some '/' → v.getLast? ≠ some '\r') :
    dropCR (renderEntry k v) = renderEntry k v := by
  rw [renderEntry_eq, dropCR_append _ _ (quoted_ne_nil v), dropCR_quoted v h]

theorem scanLines_fileText (rs : List Str) (h : ∀ r ∈ rs, '\n' ∉ r) :
    scanLines (fileText rs) = rs.map dropCR := by
  induction rs with
  | nil => rfl
  | cons r rest ih =>
    have hr := h r (List.mem_cons_self _ _)
    have ih' := ih (fun x hx => h x (List.mem_cons_of_mem _ hx))
    unfold scanLines at ih' ⊢
    have : fileText (r :: rest) = r ++ '\n' :: fileText rest := by
      simp [fileText, joinEmpty]
    rw [this, rawLines_line r _ hr]
    simp [ih']

/-- Loading the lines written for clean entries amounts to assigning the quoted values. -/
theorem loadLines_written (order : List (Str × Str)) (hc : ∀ e ∈ order, CleanEntry e)
    (hcr : ∀ e ∈ order, e.2.head? = some '/' → e.2.getLast? ≠ some '\r') :
    load (fileText (serialize order)) =
      (order.map (fun e => (e.1, quoted e.2))).foldl
        (fun (m : EnvMap) kv => m.set kv.1 kv.2) [] := by
  have hser : serialize order = order.map (fun e => renderEntry e.1 e.2) := by
    rw [serialize_eq_map_filter]
    congr 1
    rw [List.filter_eq_self]
    intro e he
    simpa using (hc e he).1
  have hscan : scanLines (fileText (serialize order)) =
      order.map (fun e => renderEntry e.1 e.2) := by
    rw [scanLines_fileText, hser, List.map_map]
    · apply List.map_congr_left
      intro e he
      exact dropCR_renderEntry e.1 e.2 (hcr e he)
    · intro r hr
      rw [hser] at hr
      obtain ⟨e, he, rfl⟩ := List.mem_map.1 hr
      exact not_mem_renderEntry e.1 e.2 (hc e he)
  unfold load
  rw [hscan]
  have hgen : ∀ (l : List (Str × Str)) (m : EnvMap), (∀ e ∈ l, CleanEntry e) →
      loadLines m (l.map (fun e => renderEntry e.1 e.2)) =
        (l.map (fun e => (e.1, quoted e.2))).foldl (fun m kv => m.set kv.1 kv.2) m := by
    intro l
    induction l with
    | nil => intro m _; rfl
    | cons e rest ih =>
      intro m hl
      simp only [List.map_cons, loadLines, List.foldl_cons]
      rw [loadLine_renderEntry m e.1 e.2 (hl e (List.mem_cons_self _ _))]
      exact ih _ (fun x hx => hl x (List.mem_cons_of_mem _ hx))
  exact hgen order [] hc

/-! ## Keys of the final map and lines of the file -/

theorem overlay_nodup (w : World) (m m' : EnvMap) (s : Str) (h : overlay w m s = .ok m')
    (hm : m.keys.Nodup) : m'.keys.Nodup := by
  unfold overlay at h
  cases hj : w.jsonParse s with
  | none => simp [hj] at h
  | some j =>
    simp only [hj] at h
    cases hu : unmarshal j with
    | none => simp [hu] at h
    | some sec =>
      simp only [hu, Except.ok.injEq] at h
      rw [← h]
      exact EnvMap.nodup_foldl_set _ m hm

theorem overlayAll_nodup (w : World) (ids : List Str) :
    ∀ (m m' : EnvMap), overlayAll w m ids = .ok m' → m.keys.Nodup → m'.keys.Nodup := by
  induction ids with
  | nil =>
    intro m m' h hm
    simp only [overlayAll, Except.ok.injEq] at h
    exact h ▸ hm
  | cons i rest ih =>
    intro m m' h hm
    unfold overlayAll at h
    cases hg : w.getSecret i with
    | none => simp [hg] at h
    | some s =>
      simp only [hg] at h
      cases ho : overlay w m s with
      | error e => simp [ho] at h
      | ok m1 =>
        simp only [ho] at h
        exact ih m1 m' h (overlay_nodup w m m1 s ho hm)

theorem occurrences_eq_one (l : List Str) (k : Str) (hnd : l.Nodup) (hk : k ∈ l) :
    occurrences k l = 1 := by
  unfold occurrences
  induction l with
  | nil => simp at hk
  | cons a rest ih =>
    simp only [List.nodup_cons] at hnd
    by_cases ha : a = k
    · subst ha
      have : rest.filter (fun x => decide (x = a)) = [] := by
        rw [List.filter_eq_nil_iff]
        intro x hx
        have : x ≠ a := fun e => hnd.1 (e ▸ hx)
        simpa using this
      simp [List.filter_cons, this]
    · have hk' : k ∈ rest := by
        rcases List.mem_cons.1 hk with h | h
        · exact absurd h.symm ha
        · exact h
      simp [List.filter_cons, ha, ih hnd.2 hk']

/-- Lookup in a loaded map: the last non-comment line with the key decides. -/
theorem get?_loadLines (lines : List Str) (m : EnvMap) (k : Str) :
    (loadLines m lines).get? k =
      match lastLineFor lines k with
      | some l => some (withoutEq (afterFirstEq l))
      | none => m.get? k := by
  induction lines generalizing m with
  | nil => simp [loadLines, lastLineFor]
  | cons l rest ih =>
    have hstep : loadLines m (l :: rest) = loadLines (loadLine m l) rest := by
      simp [loadLines]
    rw [hstep, ih]
    have hlast : lastLineFor (l :: rest) k =
        (lastLineFor rest k).or
          (if (!startsWith l '#' && decide (beforeFirstEq l = k)) = true then some l else none) := by
      unfold lastLineFor
      rw [List.reverse_cons, List.find?_append]
      congr 1
      simp only [List.find?_cons, List.find?_nil]
      cases (!startsWith l '#' && decide (beforeFirstEq l = k)) <;> rfl
    rw [hlast]
    cases hr : lastLineFor rest k with
    | some l' => simp
    | none =>
      simp only [Option.none_or]
      cases hs : startsWith l '#' with
      | true => simp [loadLine_comment m l hs]
      | false =>
        rw [loadLine_data m l hs, EnvMap.get?_set]
        by_cases hk : beforeFirstEq l = k <;> simp [hk]

theorem lastLineFor_spec (lines : List Str) (k l : Str) (h : lastLineFor lines k = some l) :
    l ∈ lines ∧ startsWith l '#' = false ∧ beforeFirstEq l = k := by
  unfold lastLineFor at h
  have h1 := List.mem_of_find?_eq_some h
  have h2 := List.find?_some h
  simp only [Bool.and_eq_true, Bool.not_eq_true', decide_eq_true_eq] at h2
  exact ⟨List.mem_reverse.1 h1, h2.1, h2.2⟩

theorem lastLineFor_isSome (lines : List Str) (l : Str) (hl : l ∈ lines)
    (hs : startsWith l '#' = false) : (lastLineFor lines (beforeFirstEq l)).isSome = true := by
  unfold lastLineFor
  rw [List.find?_isSome]
  exact ⟨l, List.mem_reverse.2 hl, by simp [hs]⟩

theorem beforeFirstEq_of_no_eq (line : Str) (h : '=' ∉ line) : beforeFirstEq line = line := by
  unfold beforeFirstEq
  rw [List.takeWhile_eq_self_iff]
  intro x hx
  have : x ≠ '=' := fun e => h (e ▸ hx)
  simpa using this

theorem afterFirstEq_of_no_eq (line : Str) (h : '=' ∉ line) : afterFirstEq line = [] := by
  unfold afterFirstEq
  have : line.dropWhile (fun c => c != '=') = [] := by
    rw [List.dropWhile_eq_nil_iff]
    intro x hx
    have : x ≠ '=' := fun e => h (e ▸ hx)
    simpa using this
  rw [this]
  rfl

/-! ## More on `split` and on loaded entries -/

theorem split_length (s : Str) (sep : Char) :
    (split s sep).length = (s.filter (fun c => decide (c = sep))).length + 1 := by
  induction s with
  | nil => simp [split]
  | cons c cs ih =>
    unfold split
    by_cases h : c = sep
    · simp [h, ih]
    · simp only [h, if_false]
      have hne := split_ne_nil cs sep
      cases hs : split cs sep with
      | nil => exact absurd hs hne
      | cons p ps =>
        rw [hs] at ih
        simp only [List.length_cons] at ih
        simp [List.filter_cons, h, ih]

theorem joinWith_split (s : Str) (sep : Char) : joinWith sep (split s sep) = s := by
  induction s with
  | nil => simp [split, joinWith]
  | cons c cs ih =>
    unfold split
    by_cases h : c = sep
    · simp only [h, if_true]
      have hne := split_ne_nil cs sep
      cases hs : split cs sep with
      | nil => exact absurd hs hne
      | cons p ps =>
        rw [hs] at ih
        simp [joinWith, ih]
    · simp only [h, if_false]
      have hne := split_ne_nil cs sep
      cases hs : split cs sep with
      | nil => exact absurd hs hne
      | cons p ps =>
        rw [hs] at ih
        cases ps with
        | nil =>
          simp only [joinWith] at ih ⊢
          rw [ih]
        | cons q qs =>
          simp only [joinWith] at ih ⊢
          rw [← ih]
          simp

theorem split_no_sep (s : Str) (sep : Char) : ∀ p ∈ split s sep, sep ∉ p := by
  induction s with
  | nil => simp [split]
  | cons c cs ih =>
    intro p hp
    unfold split at hp
    by_cases h : c = sep
    · simp only [h, if_true, List.mem_cons] at hp
      rcases hp with hp | hp
      · simp [hp]
      · exact ih p hp
    · simp only [h, if_false] at hp
      have hne := split_ne_nil cs sep
      cases hs : split cs sep with
      | nil => exact absurd hs hne
      | cons q qs =>
        rw [hs] at hp ih
        simp only [List.mem_cons] at hp
        rcases hp with hp | hp
        · subst hp
          have hq := ih q (List.mem_cons_self _ _)
          simp only [List.mem_cons, not_or]
          exact ⟨fun e => h e.symm, hq⟩
        · exact ih p (List.mem_cons_of_mem _ hp)

/-- The entry stored for a data line without line feed. -/
theorem loadedEntry_of_line (l : Str) (hnl : '\n' ∉ l) (hs : startsWith l '#' = false) :
    LoadedEntry (beforeFirstEq l, withoutEq (afterFirstEq l)) := by
  refine ⟨?_, ?_, ?_, ?_, ?_⟩
  · intro h
    have := List.mem_takeWhile_imp h
    simp at this
  · intro h
    exact hnl ((List.takeWhile_sublist _).subset h)
  · intro h
    have := (List.mem_filter.1 h).2
    simp at this
  · intro h
    have h1 := List.mem_of_mem_filter h
    have h2 := List.mem_of_mem_drop h1
    exact hnl ((List.dropWhile_sublist _).subset h2)
  · cases h : startsWith (beforeFirstEq l) '#' with
    | false => rfl
    | true =>
      rw [startsWith_beforeFirstEq l '#' h] at hs
      exact absurd hs (by decide)

theorem loadLines_loaded (lines : List Str) (m : EnvMap) (hm : ∀ e ∈ m, LoadedEntry e)
    (hl : ∀ l ∈ lines, '\n' ∉ l) : ∀ e ∈ loadLines m lines, LoadedEntry e := by
  induction lines generalizing m with
  | nil => simpa [loadLines] using hm
  | cons l rest ih =>
    simp only [loadLines, List.foldl_cons]
    apply ih
    · intro e he
      cases hs : startsWith l '#' with
      | true =>
        rw [loadLine_comment m l hs] at he
        exact hm e he
      | false =>
        rw [loadLine_data m l hs] at he
        rcases EnvMap.mem_set m _ _ e he with h1 | h1
        · rw [h1]
          exact loadedEntry_of_line l (hl l (List.mem_cons_self _ _)) hs
        · exact hm e h1
    · intro x hx
      exact hl x (List.mem_cons_of_mem _ hx)

theorem load_loaded (text : Str) : ∀ e ∈ load text, LoadedEntry e :=
  loadLines_loaded (scanLines text) [] (by simp) (scanLines_no_newline text)

/-! ## Running the tool on its own output -/

theorem expectedValue_of_absent (m : EnvMap) (bundles : List EnvMap) (k : Str)
    (h : ∀ b ∈ bundles, b.get? k = none) : expectedValue m bundles k = m.get? k := by
  unfold expectedValue
  have : bundles.reverse.find? (fun b => (b.get? k).isSome) = none := by
    rw [List.find?_eq_none]
    intro b hb
    rw [h b (List.mem_reverse.1 hb)]
    simp
  rw [this]

theorem expectedValue_mem (m : EnvMap) (bundles : List EnvMap) (k v : Str)
    (h : expectedValue m bundles k = some v) :
    (k, v) ∈ m ∨ ∃ b ∈ bundles, (k, v) ∈ b := by
  unfold expectedValue at h
  cases hf : bundles.reverse.find? (fun b => (b.get? k).isSome) with
  | none =>
    rw [hf] at h
    exact Or.inl (EnvMap.mem_of_get? m k v h)
  | some b =>
    rw [hf] at h
    exact Or.inr ⟨b, List.mem_reverse.1 (List.mem_of_find?_eq_some hf),
      EnvMap.mem_of_get? b k v h⟩

/-- A run in which nothing fails writes the serialized final map. -/
theorem main_of_overlay_ok (w : World) (text : Str) (final : EnvMap)
    (hfile : w.file = some text)
    (hopen : w.openFails = false) (hscan : w.scanFails = false)
    (hrec : w.recreateFails = false) (hwr : w.writeFails = false)
    (hfin : overlayAll w (load text) (split w.secretConfigs ',') = .ok final) :
    main w = { outcome := .success, file := some (fileText (serialize (w.range final))) } := by
  rw [main_loaded w text (Or.inl hfile) hopen hscan, hfin]
  exact writeOut_ok w _ _ hrec hwr

theorem no_newline_renderEntry (k v : Str) (hk : '\n' ∉ k) (hv : '\n' ∉ v) :
    '\n' ∉ renderEntry k v := by
  rw [renderEntry_eq]
  simp only [List.mem_append, List.mem_singleton, not_or]
  exact ⟨⟨hk, by decide⟩, not_mem_quoted v '\n' (by decide) hv⟩

/-- What the load step makes of the line written for an entry. -/
theorem loadLine_readBack (m : EnvMap) (k v : Str) (hk : k ≠ []) (hke : '=' ∉ k) :
    loadLine m (dropCR (renderEntry k v)) =
      if startsWith k '#' = true then m
      else m.set k (withoutEq (dropCR (quoted v))) := by
  have hline : dropCR (renderEntry k v) = k ++ '=' :: dropCR (quoted v) := by
    rw [renderEntry_eq, dropCR_append _ _ (quoted_ne_nil v)]
    simp
  have hstart : startsWith (k ++ '=' :: dropCR (quoted v)) '#' = startsWith k '#' := by
    cases k with
    | nil => exact absurd rfl hk
    | cons c cs => rfl
  have hpos : ∀ a ∈ k, (fun c => c != '=') a = true := by
    intro a ha
    have : a ≠ '=' := fun e => hke (e ▸ ha)
    simpa using this
  rw [hline]
  cases hs : startsWith k '#' with
  | true =>
    rw [loadLine_comment _ _ (hstart.trans hs)]
    simp
  | false =>
    rw [loadLine_data _ _ (hstart.trans hs)]
    have h1 : beforeFirstEq (k ++ '=' :: dropCR (quoted v)) = k := by
      unfold beforeFirstEq
      rw [List.takeWhile_append_of_pos hpos]
      simp [List.takeWhile_cons]
    have h2 : afterFirstEq (k ++ '=' :: dropCR (quoted v)) = dropCR (quoted v) := by
      unfold afterFirstEq
      rw [List.dropWhile_append_of_pos hpos]
      simp [List.dropWhile_cons]
    rw [h1, h2]
    simp

/-- Lines written for entries with other keys leave the value of a key alone. -/
theorem get?_readBack_other (es : List (Str × Str)) (k : Str)
    (hes : ∀ e ∈ es, e.1 ≠ [] ∧ '=' ∉ e.1) (hk : k ∉ es.map Prod.fst) :
    ∀ m : EnvMap,
      (loadLines m (es.map (fun e => dropCR (renderEntry e.1 e.2)))).get? k = m.get? k := by
  induction es with
  | nil => intro m; rfl
  | cons e rest ih =>
    intro m
    simp only [List.map_cons, List.mem_cons, not_or] at hk
    simp only [List.map_cons, loadLines, List.foldl_cons]
    have ih' := ih (fun x hx => hes x (List.mem_cons_of_mem _ hx)) hk.2
    simp only [loadLines] at ih'
    rw [ih']
    have he := hes e (List.mem_cons_self _ _)
    rw [loadLine_readBack m e.1 e.2 he.1 he.2]
    split
    · rfl
    · rw [EnvMap.get?_set]
      simp [Ne.symm hk.1]

/-- The line written for an entry is read back as its key with the value the
scanner and the splitting leave of the quoted value. -/
theorem get?_readBack (es : List (Str × Str)) (k v : Str)
    (hes : ∀ e ∈ es, e.1 ≠ [] ∧ '=' ∉ e.1) (hnd : (es.map Prod.fst).Nodup)
    (hmem : (k, v) ∈ es) (hs : startsWith k '#' = false) :
    ∀ m : EnvMap,
      (loadLines m (es.map (fun e => dropCR (renderEntry e.1 e.2)))).get? k =
        some (withoutEq (dropCR (quoted v))) := by
  induction es with
  | nil => simp at hmem
  | cons e rest ih =>
    intro m
    simp only [List.map_cons, List.nodup_cons] at hnd
    simp only [List.map_cons, loadLines, List.foldl_cons]
    have hrest := fun x hx => hes x (List.mem_cons_of_mem _ hx)
    rcases List.mem_cons.1 hmem with h | h
    · subst h
      have hother := get?_readBack_other rest k hrest hnd.1
      simp only [loadLines] at hother
      rw [hother]
      have he := hes (k, v) (List.mem_cons_self _ _)
      rw [loadLine_readBack m k v he.1 he.2]
      simp [hs, EnvMap.get?_set]
    · have ih' := ih hrest hnd.2 h
      simp only [loadLines] at ih'
      exact ih' _

/-- Reading back the file written for a map of harmless entries. -/
theorem load_written_get? (order : List (Str × Str)) (k v : Str)
    (hharm : ∀ e ∈ order, Harmless e) (hnd : (order.map Prod.fst).Nodup)
    (hmem : (k, v) ∈ order) (hk : k ≠ []) (hs : startsWith k '#' = false) :
    (load (fileText (serialize order))).get? k = some (withoutEq (dropCR (quoted v))) := by
  have hscan : scanLines (fileText (serialize order)) =
      (order.filter (fun e => decide (e.1 ≠ []))).map
        (fun e => dropCR (renderEntry e.1 e.2)) := by
    rw [scanLines_fileText, serialize_eq_map_filter, List.map_map]
    · rfl
    · intro r hr
      rw [serialize_eq_map_filter] at hr
      obtain ⟨e, he, rfl⟩ := List.mem_map.1 hr
      have hh := hharm e (List.mem_filter.1 he).1
      exact no_newline_renderEntry e.1 e.2 hh.2.1 hh.2.2
  unfold load
  rw [hscan]
  apply get?_readBack
  · intro e he
    have h1 := List.mem_filter.1 he
    exact ⟨by simpa using h1.2, (hharm e h1.1).1⟩
  · exact List.Nodup.sublist (List.Sublist.map Prod.fst (List.filter_sublist _)) hnd
  · exact List.mem_filter.2 ⟨hmem, by simpa using hk⟩
  · exact hs

theorem withoutEq_dropCR_quoted (u : Str) (hu : u.head? ≠ some '/') (he : '=' ∉ u) :
    withoutEq (dropCR (quoted u)) = '"' :: u ++ ['"'] := by
  rw [dropCR_quoted u (fun h => absurd h hu)]
  have hq : quoted u = '"' :: u ++ ['"'] := by
    cases u with
    | nil => rfl
    | cons c cs =>
      have hc : ¬ c = '/' := by simpa using hu
      unfold quoted
      split
      · rename_i heq
        simp only [List.cons.injEq] at heq
        exact absurd heq.1 hc
      · simp
  have hf : withoutEq (quoted u) = quoted u := by
    unfold withoutEq
    rw [List.filter_eq_self]
    intro a ha
    have : a ≠ '=' := fun e => not_mem_quoted u '=' (by decide) he (e ▸ ha)
    simpa using this
  rw [hf, hq]

theorem renderEntry_head (k v : Str) :
    renderEntry k v =
      if v.head? = some '/' then k ++ ['='] ++ v else k ++ ['=', '"'] ++ v ++ ['"'] := by
  unfold renderEntry
  cases v with
  | nil => simp [startsWith]
  | cons c cs => by_cases h : c = '/' <;> simp [startsWith, h]

/-- One run in which nothing fails, seen from a key of the file that no bundle
holds: its line is written, and the written file is read back with the quoted
value as far as the scanner and the splitting leave it. -/
theorem rerun_step (w : World) (hr : w.RangeOk) (bundles : List EnvMap) (text k u : Str)
    (hfile : w.file = some text)
    (hopen : w.openFails = false) (hscan : w.scanFails = false)
    (hrec : w.recreateFails = false) (hwr : w.writeFails = false)
    (hdec : (split w.secretConfigs ',').map (fetchBundle w) = bundles.map some)
    (hk : k ≠ []) (hku : (load text).get? k = some u)
    (hnot : ∀ b ∈ bundles, b.get? k = none) :
    ∃ lines, main w = { outcome := .success, file := some (fileText lines) } ∧
      renderEntry k u ∈ lines ∧
      ((∀ b ∈ bundles, ∀ e ∈ b, Harmless e) →
        (load (fileText lines)).get? k = some (withoutEq (dropCR (quoted u)))) := by
  obtain ⟨final, hfin, hnd, hget⟩ :=
    overlayAll_decoded w hr (split w.secretConfigs ',') (load text) bundles hdec
  have hndf := hnd (load_nodup text)
  have hkf : final.get? k = some u := by
    rw [hget, expectedValue_of_absent _ _ _ hnot]
    exact hku
  have hmemr : (k, u) ∈ w.range final :=
    (hr final).mem_iff.2 (EnvMap.mem_of_get? final k u hkf)
  have hloaded := load_loaded text (k, u) (EnvMap.mem_of_get? _ k u hku)
  refine ⟨serialize (w.range final),
    main_of_overlay_ok w text final hfile hopen hscan hrec hwr hfin,
    (mem_serialize _ _).2 ⟨k, u, hmemr, hk, rfl⟩, ?_⟩
  intro hharm
  apply load_written_get? (w.range final) k u
  · intro e he
    have hef : e ∈ final := (hr final).mem_iff.1 he
    have h1 := EnvMap.get?_of_mem final e.1 e.2 hndf hef
    rw [hget] at h1
    rcases expectedValue_mem _ _ _ _ h1 with h2 | ⟨b, hb, h2⟩
    · have h3 := load_loaded text _ h2
      exact ⟨h3.1, h3.2.1, h3.2.2.2.1⟩
    · exact hharm b hb _ h2
  · exact (List.Perm.map Prod.fst (hr final)).nodup_iff.2 hndf
  · exact hmemr
  · exact hk
  · exact hloaded.2.2.2.2

/-- Reading back the written file, the scanner's limit left aside: for a file of
well-formed lines the lookup after the round trip is the first lookup after the
quoting transform. -/
theorem reload_of_wellFormed (text : Str) (order : List (Str × Str))
    (hwf : ∀ l ∈ scanLines text, WellFormedLine l)
    (hord : order.Perm (load text))
    (hcr : ∀ k v, (load text).get? k = some v → v.head? = some '/' →
      v.getLast? ≠ some '\r') :
    (∀ k, (load (fileText (serialize order))).get? k = ((load text).get? k).map quoted) ∧
    (∀ k, k ∈ (load (fileText (serialize order))).keys ↔ k ∈ (load text).keys) := by
  have hnd := load_nodup text
  have hclean : ∀ e ∈ load text, CleanEntry e :=
    loadLines_clean (scanLines text) [] (by simp)
      (fun l hl => ⟨scanLines_no_newline text l hl, fun _ => (hwf l hl).2.2⟩)
  have hco : ∀ e ∈ order, CleanEntry e := fun e he => hclean e (hord.mem_iff.1 he)
  have hcro : ∀ e ∈ order, e.2.head? = some '/' → e.2.getLast? ≠ some '\r' :=
    fun e he => hcr e.1 e.2 (EnvMap.get?_of_mem (load text) e.1 e.2 hnd (hord.mem_iff.1 he))
  have hnd' : EnvMap.keys ((load text).map (fun e => (e.1, quoted e.2))) = (load text).keys := by
    simp [EnvMap.keys, List.map_map, Function.comp_def]
  have hget : ∀ k, (load (fileText (serialize order))).get? k =
      ((load text).get? k).map quoted := by
    intro k
    rw [loadLines_written order hco hcro,
      EnvMap.get?_foldl_set_perm ((load text).map (fun e => (e.1, quoted e.2)))
        (order.map (fun e => (e.1, quoted e.2))) (by rw [hnd']; exact hnd)
        (hord.map _) [] k,
      EnvMap.get?_map_value]
    cases (load text).get? k <;> simp [EnvMap.get?]
  refine ⟨hget, ?_⟩
  intro k
  have h1 := EnvMap.get?_eq_none (load (fileText (serialize order))) k
  have h2 := EnvMap.get?_eq_none (load text) k
  rw [hget k] at h1
  constructor
  · intro hk
    by_contra hn
    have := h2.2 hn
    rw [this] at h1
    exact (h1.1 rfl) hk
  · intro hk
    by_contra hn
    have := h1.2 hn
    rw [Option.map_eq_none'] at this
    exact (h2.1 this) hk

/-! ## The scanner's limit and the first failing bundle -/

theorem rawLines_fileText (rs : List Str) (h : ∀ r ∈ rs, '\n' ∉ r) :
    rawLines (fileText rs) = rs := by
  induction rs with
  | nil => rfl
  | cons r rest ih =>
    have hr := h r (List.mem_cons_self _ _)
    have ih' := ih (fun x hx => h x (List.mem_cons_of_mem _ hx))
    have : fileText (r :: rest) = r ++ '\n' :: fileText rest := by
      simp [fileText, joinEmpty]
    rw [this, rawLines_line r _ hr, ih']

/-- A written file whose lines all stay below the scanner's limit is scanned to
the end. -/
theorem tooLong_fileText_eq_false (rs : List Str) (h : ∀ r ∈ rs, '\n' ∉ r)
    (hfit : ∀ r ∈ rs, byteLen r < maxScanTokenSize) : tooLong (fileText rs) = false := by
  unfold tooLong
  rw [rawLines_fileText rs h, List.any_eq_false]
  intro r hr
  have := hfit r hr
  simp only [decide_eq_true_eq, not_le]
  exact this

/-- A written file with a line at or above the scanner's limit cannot be read back. -/
theorem tooLong_fileText_eq_true (rs : List Str) (h : ∀ r ∈ rs, '\n' ∉ r) (r : Str)
    (hr : r ∈ rs) (hlong : maxScanTokenSize ≤ byteLen r) : tooLong (fileText rs) = true := by
  unfold tooLong
  rw [rawLines_fileText rs h, List.any_eq_true]
  exact ⟨r, hr, by simpa using hlong⟩

theorem loadFile_eq_some (text : Str) (m : EnvMap) (h : loadFile text = some m) :
    tooLong text = false ∧ m = load text := by
  unfold loadFile at h
  cases ht : tooLong text with
  | true => simp [ht] at h
  | false =>
    simp only [ht, Bool.false_eq_true, if_false, Option.some.injEq] at h
    exact ⟨rfl, h.symm⟩

/-- The run after a load step that succeeded. -/
theorem main_of_loadOk (w : World) (h : w.LoadOk) :
    main w =
      match overlayAll w (load (w.file.getD [])) (split w.secretConfigs ',') with
      | .error e => { outcome := .panicked e, file := some (w.file.getD []) }
      | .ok envData => writeOut w (w.file.getD []) (serialize (w.range envData)) := by
  obtain ⟨h1, hopen, hscan⟩ := h
  cases hf : w.file with
  | none =>
    obtain ⟨hst, hc⟩ := h1 hf
    exact main_loaded w [] (Or.inr ⟨hf, hst, hc, rfl⟩) hopen hscan
  | some c => exact main_loaded w c (Or.inl hf) hopen hscan

/-- The overlay loop stops at the first bundle that does not decode, with the
error of the decoder. -/
theorem overlayAll_first_bad (w : World) (id s : Str) (after : List Str)
    (hget : w.getSecret id = some s) (hdec : decodePayload w s = none)
    (before : List Str) (hbefore : ∀ i ∈ before, fetchBundle w i ≠ none) :
    ∀ m : EnvMap,
      overlayAll w m (before ++ id :: after) = .error .jsonSyntax ∨
      overlayAll w m (before ++ id :: after) = .error .jsonType := by
  induction before with
  | nil =>
    intro m
    simp only [List.nil_append]
    unfold overlayAll
    simp only [hget]
    rcases overlay_of_not_decode w m s hdec with h | h <;> simp [h]
  | cons i rest ih =>
    intro m
    have hi := hbefore i (List.mem_cons_self _ _)
    have ih' := ih (fun x hx => hbefore x (List.mem_cons_of_mem _ hx))
    simp only [List.cons_append]
    unfold overlayAll
    unfold fetchBundle at hi
    cases hg : w.getSecret i with
    | none => simp [hg] at hi
    | some si =>
      simp only [hg] at hi ⊢
      cases hd : decodePayload w si with
      | none => exact absurd hd hi
      | some sec =>
        rw [overlay_of_decode w m si sec hd]
        exact ih' _

/-! ## The claims -/

/-- C1 (fails on the code): the line `URL=a=b` is stored with key `URL`, as
claimed, but with value `ab`: the `=` characters after the first one are lost,
so the value is not the text after the first `=`, which is `a=b`. -/
theorem C1_later_equals_signs_are_lost :
    load "URL=a=b".toList = [("URL".toList, "ab".toList)] ∧
    afterFirstEq "URL=a=b".toList = "a=b".toList ∧
    (load "URL=a=b".toList).get? "URL".toList ≠ some (afterFirstEq "URL=a=b".toList) := by
  decide

/-- C2: overlay precedence.  Whatever map was loaded from the file and whatever
the list of bundle identifiers, if every bundle is fetched and decodes then the
overlay loop ends with a map in which every key has the value of the
last-listed bundle containing it, or its file value when no bundle contains it. -/
theorem C2_overlay_precedence (w : World) (hr : w.RangeOk) (fileMap : EnvMap)
    (ids : List Str) (bundles : List EnvMap)
    (hdec : ids.map (fetchBundle w) = bundles.map some) :
    ∃ final, overlayAll w fileMap ids = .ok final ∧
      ∀ k, final.get? k = expectedValue fileMap bundles k := by
  obtain ⟨m', h1, _, h3⟩ := overlayAll_decoded w hr ids fileMap bundles hdec
  exact ⟨m', h1, h3⟩

/-- Witness of C2: the file `A=1` with the bundles `{"A":"2"}` and `{"A":"3"}`,
for which the expected value of `A` is `3`. -/
theorem C2_overlay_precedence_witness :
    precedenceWorld.RangeOk ∧
    (split precedenceWorld.secretConfigs ',').map (fetchBundle precedenceWorld) =
      [[("A".toList, "2".toList)], [("A".toList, "3".toList)]].map some ∧
    expectedValue (load "A=1".toList)
      [[("A".toList, "2".toList)], [("A".toList, "3".toList)]] "A".toList = some "3".toList ∧
    ∃ final, overlayAll precedenceWorld (load "A=1".toList)
        (split precedenceWorld.secretConfigs ',') = .ok final ∧
      ∀ k, final.get? k = expectedValue (load "A=1".toList)
        [[("A".toList, "2".toList)], [("A".toList, "3".toList)]] k :=
  ⟨fun m => List.reverse_perm m, by decide, by decide,
    C2_overlay_precedence precedenceWorld (fun m => List.reverse_perm m) _ _ _ (by decide)⟩

/-- C3: quoting rule.  The line emitted for an entry with a non-empty key `k` and
value `v` is `k=v` when `v` begins with `/` and `k="v"` otherwise (also when `v`
is empty), the characters of `v` being copied unchanged; the lines of the other
entries stand around it in iteration order. -/
theorem C3_quoting_rule (before after : List (Str × Str)) (k v : Str) (hk : k ≠ []) :
    serialize (before ++ (k, v) :: after) =
      serialize before ++
        (if v.head? = some '/' then k ++ ['='] ++ v else k ++ ['=', '"'] ++ v ++ ['"']) ::
        serialize after := by
  rw [serialize_append]
  have hr : renderEntry k v =
      (if v.head? = some '/' then k ++ ['='] ++ v else k ++ ['=', '"'] ++ v ++ ['"']) := by
    unfold renderEntry
    cases v with
    | nil => simp [startsWith]
    | cons c cs => by_cases h : c = '/' <;> simp [startsWith, h]
  simp [serialize, hk, hr]

/-- Witness of C3: `KEY=/usr/local/bin` stays unquoted, `KEY="hello"` and
`KEY=""` are quoted. -/
theorem C3_quoting_rule_witness :
    serialize [("KEY".toList, "/usr/local/bin".toList)] = ["KEY=/usr/local/bin".toList] ∧
    serialize [("KEY".toList, "hello".toList)] = ["KEY=\"hello\"".toList] ∧
    serialize [("KEY".toList, [])] = ["KEY=\"\"".toList] ∧
    serialize ([] ++ ("KEY".toList, "hello".toList) :: []) =
      serialize [] ++
        (if "hello".toList.head? = some '/' then "KEY".toList ++ ['='] ++ "hello".toList
          else "KEY".toList ++ ['=', '"'] ++ "hello".toList ++ ['"']) :: serialize [] :=
  ⟨by decide, by decide, by decide,
    C3_quoting_rule [] [] "KEY".toList "hello".toList (by decide)⟩

/-- C4: end-to-end result.  When no file operation fails and every configured
bundle is fetched and decodes, the run succeeds and leaves in the target file
the lines, each followed by a line feed, whose set is the set of renderings
`k=quoted v` of the entries with non-empty key `k` of the map loaded from the
file and overlaid by the bundles in order. -/
theorem C4_end_to_end (w : World) (hr : w.RangeOk) (bundles : List EnvMap)
    (hcreate : w.file = none → w.createBlankFails = false)
    (hopen : w.openFails = false) (hscan : w.scanFails = false)
    (hrec : w.recreateFails = false) (hwr : w.writeFails = false)
    (hdec : (split w.secretConfigs ',').map (fetchBundle w) = bundles.map some) :
    ∃ lines : List Str,
      main w = { outcome := .success, file := some (fileText lines) } ∧
      ∀ l, l ∈ lines ↔
        ∃ k v, k ≠ [] ∧ expectedValue (load (w.file.getD [])) bundles k = some v ∧
          l = k ++ ['='] ++ quoted v := by
  obtain ⟨final, hfin, hnd, hget⟩ :=
    overlayAll_decoded w hr (split w.secretConfigs ',') (load (w.file.getD [])) bundles hdec
  have hndf := hnd (load_nodup _)
  refine ⟨serialize (w.range final), ?_, ?_⟩
  · have hmain : main w = writeOut w (w.file.getD []) (serialize (w.range final)) := by
      cases hf : w.file with
      | none =>
        have hc := hcreate hf
        have hst : w.statOtherError = false := by
          cases h : w.statOtherError with
          | false => rfl
          | true =>
            have := w.statConsistent hf h
            rw [hopen] at this
            exact absurd this (by decide)
        simp only [hf, Option.getD_none] at hfin ⊢
        rw [main_loaded w [] (Or.inr ⟨hf, hst, hc, rfl⟩) hopen hscan, hfin]
      | some c =>
        simp only [hf, Option.getD_some] at hfin ⊢
        rw [main_loaded w c (Or.inl hf) hopen hscan, hfin]
    rw [hmain, writeOut_ok w _ _ hrec hwr]
  · intro l
    rw [mem_serialize]
    constructor
    · rintro ⟨k, v, hm, hk, rfl⟩
      refine ⟨k, v, hk, ?_, renderEntry_eq k v⟩
      rw [← hget]
      exact EnvMap.get?_of_mem final k v hndf ((hr final).mem_iff.1 hm)
    · rintro ⟨k, v, hk, he, rfl⟩
      refine ⟨k, v, ?_, hk, (renderEntry_eq k v).symm⟩
      rw [← hget] at he
      exact (hr final).mem_iff.2 (EnvMap.mem_of_get? final k v he)

/-- Witness of C4: the scenario of the specification, whose run writes
`BAZ=/tmp/x` and `FOO="override"`. -/
theorem C4_end_to_end_witness :
    main scenarioWorld =
      { outcome := .success,
        file := some (fileText ["BAZ=/tmp/x".toList, "FOO=\"override\"".toList]) } ∧
    ∃ lines : List Str,
      main scenarioWorld = { outcome := .success, file := some (fileText lines) } ∧
      ∀ l, l ∈ lines ↔
        ∃ k v, k ≠ [] ∧
          expectedValue (load (scenarioWorld.file.getD []))
            [[("FOO".toList, "override".toList)]] k = some v ∧
          l = k ++ ['='] ++ quoted v :=
  ⟨by decide,
    C4_end_to_end scenarioWorld (fun m => List.reverse_perm m)
      [[("FOO".toList, "override".toList)]] (by decide) (by decide) (by decide) (by decide)
      (by decide) (by decide)⟩

/-- C5 (fails as stated): the file `A=/x\r\r` followed by a line feed consists of
one well-formed line; its value is loaded as `/x\r`, written back unquoted, and
read again as `/x`, because the scanner takes the carriage return before a line
feed for part of the line ending. -/
theorem C5_trailing_carriage_return_is_lost :
    scanLines "A=/x\r\r\n".toList = ["A=/x\r".toList] ∧
    (∀ l ∈ scanLines "A=/x\r\r\n".toList, WellFormedLine l) ∧
    load "A=/x\r\r\n".toList = [("A".toList, "/x\r".toList)] ∧
    load (fileText (serialize (load "A=/x\r\r\n".toList))) = [("A".toList, "/x".toList)] ∧
    (load (fileText (serialize (load "A=/x\r\r\n".toList)))).get? "A".toList ≠
      ((load "A=/x\r\r\n".toList).get? "A".toList).map quoted := by
  decide

/-- C5 (amended): round trip.  For a file made of well-formed `KEY=VALUE` lines
that the scanner reads to the end, in which no loaded value that begins with `/`
ends in a carriage return and every line to be written (key, `=`, quoted value)
stays below the 65536 bytes at which the scanner gives up, loading it,
serializing the map in any iteration order, writing the lines and loading the
written file again succeeds and gives a map with the same keys, each with the
value of the first load after the quoting transform. -/
theorem C5_round_trip (text : Str) (m1 : EnvMap) (order : List (Str × Str))
    (hload : loadFile text = some m1)
    (hwf : ∀ l ∈ scanLines text, WellFormedLine l)
    (hord : order.Perm m1)
    (hcr : ∀ k v, m1.get? k = some v → v.head? = some '/' → v.getLast? ≠ some '\r')
    (hfit : ∀ k v, m1.get? k = some v →
      byteLen (k ++ ['='] ++ quoted v) < maxScanTokenSize) :
    ∃ m2, loadFile (fileText (serialize order)) = some m2 ∧
      (∀ k, m2.get? k = (m1.get? k).map quoted) ∧
      (∀ k, k ∈ m2.keys ↔ k ∈ m1.keys) := by
  obtain ⟨_, hm1⟩ := loadFile_eq_some text m1 hload
  subst hm1
  have hnd := load_nodup text
  have hclean : ∀ e ∈ load text, CleanEntry e :=
    loadLines_clean (scanLines text) [] (by simp)
      (fun l hl => ⟨scanLines_no_newline text l hl, fun _ => (hwf l hl).2.2⟩)
  have hlines : ∀ r ∈ serialize order,
      '\n' ∉ r ∧ byteLen r < maxScanTokenSize := by
    intro r hr
    obtain ⟨k, v, hmem, _, rfl⟩ := (mem_serialize order r).1 hr
    have hml := hord.mem_iff.1 hmem
    refine ⟨not_mem_renderEntry k v (hclean _ hml), ?_⟩
    rw [renderEntry_eq]
    exact hfit k v (EnvMap.get?_of_mem (load text) k v hnd hml)
  have htl : tooLong (fileText (serialize order)) = false :=
    tooLong_fileText_eq_false _ (fun r hr => (hlines r hr).1) (fun r hr => (hlines r hr).2)
  obtain ⟨hget, hkeys⟩ := reload_of_wellFormed text order hwf hord hcr
  refine ⟨load (fileText (serialize order)), ?_, hget, hkeys⟩
  unfold loadFile
  simp [htl]

/-- Witness of C5: the file with the lines `A=1` and `P=/tmp/x`, serialized last
entry first, is read back as `A` with `"1"` and `P` with `/tmp/x`. -/
theorem C5_round_trip_witness :
    loadFile "A=1\nP=/tmp/x\n".toList =
      some [("A".toList, "1".toList), ("P".toList, "/tmp/x".toList)] ∧
    loadFile (fileText (serialize
        [("P".toList, "/tmp/x".toList), ("A".toList, "1".toList)])) =
      some [("P".toList, "/tmp/x".toList), ("A".toList, "\"1\"".toList)] ∧
    ∃ m2, loadFile (fileText (serialize
        [("P".toList, "/tmp/x".toList), ("A".toList, "1".toList)])) = some m2 ∧
      (∀ k, m2.get? k =
        (EnvMap.get? [("A".toList, "1".toList), ("P".toList, "/tmp/x".toList)] k).map quoted) ∧
      (∀ k, k ∈ m2.keys ↔
        k ∈ EnvMap.keys [("A".toList, "1".toList), ("P".toList, "/tmp/x".toList)]) :=
  ⟨by decide, by decide,
    C5_round_trip "A=1\nP=/tmp/x\n".toList
      [("A".toList, "1".toList), ("P".toList, "/tmp/x".toList)]
      [("P".toList, "/tmp/x".toList), ("A".toList, "1".toList)]
      (by decide) (by decide) (List.Perm.swap _ _ _)
      (by
        intro k v h hh
        have hm := EnvMap.mem_of_get? _ k v h
        simp only [List.mem_cons, Prod.mk.injEq, List.mem_singleton] at hm
        rcases hm with hm | hm | hm
        · obtain ⟨_, hv⟩ := hm
          subst hv
          decide
        · obtain ⟨_, hv⟩ := hm
          subst hv
          decide
        · simp at hm)
      (by
        intro k v h
        have hm := EnvMap.mem_of_get? _ k v h
        simp only [List.mem_cons, Prod.mk.injEq, List.mem_singleton] at hm
        rcases hm with hm | hm | hm
        · obtain ⟨hk, hv⟩ := hm
          subst hk
          subst hv
          decide
        · obtain ⟨hk, hv⟩ := hm
          subst hk
          subst hv
          decide
        · simp at hm)⟩

/-- C6 (fails as stated): when the target file does not exist before the run and
the fetch of a bundle fails, the run panics but leaves an empty target file
behind, created at line 107: the state after the run is not the pre-run state. -/
theorem C6_absent_file_is_left_created :
    absentFileWorld.file = none ∧
    "b1".toList ∈ split absentFileWorld.secretConfigs ',' ∧
    fetchBundle absentFileWorld "b1".toList = none ∧
    main absentFileWorld = { outcome := .panicked .fetch, file := some [] } ∧
    (main absentFileWorld).file ≠ absentFileWorld.file := by
  decide

/-- C6 (amended): if fetching or decoding any configured bundle fails, the run
panics, nothing of the merge is written, and the target file is left as the
load step left it: a file that existed keeps its pre-run content; a file that
did not exist has been created empty when `os.Stat` reported it as not
existing and the creation succeeded, and is still absent otherwise. -/
theorem C6_failed_bundle_leaves_file (w : World) (id : Str)
    (hid : id ∈ split w.secretConfigs ',') (hfail : fetchBundle w id = none) :
    (∃ e, (main w).outcome = .panicked e) ∧ (main w).file = fileAfterAbort w ∧
    (∀ content, w.file = some content → (main w).file = some content) ∧
    (w.file = none → w.statOtherError = false → w.createBlankFails = false →
      (main w).file = some []) ∧
    (w.file = none → (w.statOtherError = true ∨ w.createBlankFails = true) →
      (main w).file = none) := by
  have hmain := main_of_overlay_error w (overlayAll_fails w id hfail _ hid)
  refine ⟨hmain.1, hmain.2, ?_, ?_, ?_⟩
  · intro content hc
    rw [hmain.2]
    simp [fileAfterAbort, hc]
  · intro hn hst hc
    rw [hmain.2]
    simp [fileAfterAbort, hn, hst, hc]
  · intro hn h
    rw [hmain.2]
    rcases h with h | h <;> simp [fileAfterAbort, hn, h]

/-- Witness of C6: the bundle `b1` of `numberWorld` does not decode, and the
run leaves the file content `A=1` in place; in `notDirWorld`, where the target
path cannot be resolved, the run leaves no file. -/
theorem C6_failed_bundle_leaves_file_witness :
    "b1".toList ∈ split numberWorld.secretConfigs ',' ∧
    fetchBundle numberWorld "b1".toList = none ∧
    (main numberWorld).file = some "A=1".toList ∧
    main notDirWorld = { outcome := .panicked .openFile, file := none } ∧
    ((∃ e, (main numberWorld).outcome = .panicked e) ∧
      (main numberWorld).file = fileAfterAbort numberWorld ∧
      (∀ content, numberWorld.file = some content → (main numberWorld).file = some content) ∧
      (numberWorld.file = none → numberWorld.statOtherError = false →
        numberWorld.createBlankFails = false → (main numberWorld).file = some []) ∧
      (numberWorld.file = none →
        (numberWorld.statOtherError = true ∨ numberWorld.createBlankFails = true) →
        (main numberWorld).file = none)) :=
  ⟨by decide, by decide, by decide, by decide,
    C6_failed_bundle_leaves_file numberWorld "b1".toList (by decide) (by decide)⟩

/-- C7 (fails as stated): the payload `null` is valid JSON that is not an object,
and the payload `{"A":null}` is an object with a value that is not a string, yet
neither makes the overlay fail: the first merges nothing, the second stores the
empty string for `A`, and the run succeeds and writes `A=""`. -/
theorem C7_null_payloads_are_accepted :
    nullWorld.jsonParse "null".toList = some .null ∧
    FlatStringObject .null = false ∧
    FlatStringObject (.object [("A".toList, .null)]) = false ∧
    overlay nullWorld [("A".toList, "1".toList)] "null".toList =
      .ok [("A".toList, "1".toList)] ∧
    overlay nullWorld [("A".toList, "1".toList)] "\x7b\"A\":null\x7d".toList =
      .ok [("A".toList, [])] ∧
    main nullWorld = { outcome := .success, file := some "A=\"\"\n".toList } :=
  ⟨rfl, by decide, by decide, rfl, rfl, by decide⟩

/-- C7 (amended): a payload that is not valid JSON, or that is valid JSON but
neither `null` nor an object whose values are all strings or `null` (a number,
boolean, array or nested object as a value, or a top-level array, string, number
or boolean), makes the overlay fail with a decode error; the run then panics
without merging or skipping the bundle and without rewriting the target file.
When the load step succeeded and the bundles listed before that one decode,
the panic is that decode error. -/
theorem C7_decode_failure (w : World) (envData : EnvMap) (id secretString : Str)
    (hid : id ∈ split w.secretConfigs ',') (hget : w.getSecret id = some secretString)
    (hbad : w.jsonParse secretString = none ∨
      ∃ j, w.jsonParse secretString = some j ∧ Accepted j = false) :
    (overlay w envData secretString = .error .jsonSyntax ∨
      overlay w envData secretString = .error .jsonType) ∧
    (∃ e, (main w).outcome = .panicked e) ∧ (main w).file = fileAfterAbort w ∧
    (∀ before after, split w.secretConfigs ',' = before ++ id :: after →
      (∀ i ∈ before, fetchBundle w i ≠ none) → w.LoadOk →
      (main w = { outcome := .panicked .jsonSyntax, file := some (w.file.getD []) } ∨
        main w = { outcome := .panicked .jsonType, file := some (w.file.getD []) })) := by
  have hdec : decodePayload w secretString = none := by
    unfold decodePayload
    rcases hbad with h | ⟨j, hj, hacc⟩
    · simp [h]
    · simp [hj, unmarshal_not_accepted j hacc]
  have hfetch : fetchBundle w id = none := by
    unfold fetchBundle
    simp [hget, hdec]
  have hmain := main_of_overlay_error w (overlayAll_fails w id hfetch _ hid)
  refine ⟨overlay_of_not_decode w envData secretString hdec, hmain.1, hmain.2, ?_⟩
  intro before after hsplit hbefore hload
  rw [main_of_loadOk w hload, hsplit]
  rcases overlayAll_first_bad w id secretString after hget hdec before hbefore
    (load (w.file.getD [])) with h | h
  · exact Or.inl (by rw [h])
  · exact Or.inr (by rw [h])

/-- Witness of C7: the payload `{"A":1}` of `numberWorld`, whose value is a
number, ends the run with the type error of the decoder. -/
theorem C7_decode_failure_witness :
    main numberWorld = { outcome := .panicked .jsonType, file := some "A=1".toList } ∧
    ((overlay numberWorld [] "\x7b\"A\":1\x7d".toList = .error .jsonSyntax ∨
      overlay numberWorld [] "\x7b\"A\":1\x7d".toList = .error .jsonType) ∧
    (∃ e, (main numberWorld).outcome = .panicked e) ∧
    (main numberWorld).file = fileAfterAbort numberWorld ∧
    (∀ before after, split numberWorld.secretConfigs ',' = before ++ "b1".toList :: after →
      (∀ i ∈ before, fetchBundle numberWorld i ≠ none) → numberWorld.LoadOk →
      (main numberWorld =
          { outcome := .panicked .jsonSyntax, file := some (numberWorld.file.getD []) } ∨
        main numberWorld =
          { outcome := .panicked .jsonType, file := some (numberWorld.file.getD []) }))) :=
  ⟨by decide,
    C7_decode_failure numberWorld [] "b1".toList "\x7b\"A\":1\x7d".toList (by decide)
      (by decide) (Or.inr ⟨.object [("A".toList, .number "1".toList)], rfl, by decide⟩)⟩

/-- C8: comment lines never contribute a key.  A line that begins with `#`,
inserted at the start of any line of the file (or deleted there), leaves the
loaded map unchanged; the same holds for the sequence of scanned lines, wherever
the comment line stands in it; and no key of a loaded map begins with `#`. -/
theorem C8_comment_lines_contribute_nothing (t1 t2 c : Str)
    (hc : startsWith c '#' = true) (hnl : '\n' ∉ c)
    (hpos : t1 = [] ∨ t1.getLast? = some '\n') :
    load (t1 ++ c ++ ['\n'] ++ t2) = load (t1 ++ t2) ∧
    (∀ (before after : List Str) (m : EnvMap),
      loadLines m (before ++ c :: after) = loadLines m (before ++ after)) ∧
    (∀ (text k : Str), k ∈ (load text).keys → startsWith k '#' = false) := by
  refine ⟨?_, ?_, ?_⟩
  · have h1 : rawLines (t1 ++ c ++ ['\n'] ++ t2) = rawLines t1 ++ c :: rawLines t2 := by
      have : t1 ++ c ++ ['\n'] ++ t2 = t1 ++ (c ++ '\n' :: t2) := by simp
      rw [this, rawLines_append_boundary t1 _ hpos, rawLines_line c t2 hnl]
    have h2 : rawLines (t1 ++ t2) = rawLines t1 ++ rawLines t2 :=
      rawLines_append_boundary t1 t2 hpos
    unfold load scanLines
    rw [h1, h2]
    simp only [List.map_append, List.map_cons]
    exact loadLines_remove_comment _ _ _ _ (startsWith_dropCR c '#' (by decide) hc)
  · intro before after m
    exact loadLines_remove_comment before after c m hc
  · intro text k hk
    rcases mem_keys_loadLines _ [] k hk with h | ⟨l, _, hl, rfl⟩
    · simp [EnvMap.keys] at h
    · cases hs : startsWith (beforeFirstEq l) '#' with
      | false => rfl
      | true =>
        rw [startsWith_beforeFirstEq l '#' hs] at hl
        exact absurd hl (by decide)

/-- Witness of C8: the line `# DB_PASSWORD=secret` inserted between `A=1` and
`B=2`; the loaded map has the keys `A` and `B` only. -/
theorem C8_comment_lines_contribute_nothing_witness :
    load "A=1\n# DB_PASSWORD=secret\nB=2\n".toList =
      [("A".toList, "1".toList), ("B".toList, "2".toList)] ∧
    (load ("A=1\n".toList ++ "# DB_PASSWORD=secret".toList ++ ['\n'] ++ "B=2\n".toList) =
        load ("A=1\n".toList ++ "B=2\n".toList) ∧
      (∀ (before after : List Str) (m : EnvMap),
        loadLines m (before ++ "# DB_PASSWORD=secret".toList :: after) =
          loadLines m (before ++ after)) ∧
      (∀ (text k : Str), k ∈ (load text).keys → startsWith k '#' = false)) :=
  ⟨by decide,
    C8_comment_lines_contribute_nothing "A=1\n".toList "B=2\n".toList
      "# DB_PASSWORD=secret".toList (by decide) (by decide) (Or.inr (by decide))⟩

/-- C9 (fails as stated): a file that consists of one blank line loads into a map
that holds one key, the empty string; the map is not empty. -/
theorem C9_blank_line_stores_empty_key :
    scanLines "\n".toList = [[]] ∧
    load "\n".toList = [([], [])] ∧
    (load "\n".toList).keys ≠ [] ∧
    load "# only a comment\n\n".toList = [([], [])] := by
  decide

/-- C9 (amended): for a file in which every line begins with `#` or is empty
(the empty file included), the loaded map has no key other than the empty
string: it is the empty map when no line is empty, and the map with the single
entry `"" ↦ ""` when some line is empty. -/
theorem C9_comment_or_blank_file (text : Str)
    (h : ∀ l ∈ scanLines text, startsWith l '#' = true ∨ l = []) :
    (∀ k ∈ (load text).keys, k = []) ∧
    ([] ∉ scanLines text → load text = []) ∧
    ([] ∈ scanLines text → load text = [([], [])]) := by
  have hl := (loadLines_comment_or_blank (scanLines text) h).1
  unfold load
  rw [hl]
  refine ⟨?_, ?_, ?_⟩
  · intro k hk
    split at hk
    · simpa [EnvMap.keys] using hk
    · simp [EnvMap.keys] at hk
  · intro hn
    simp [hn]
  · intro hm
    simp [hm]

/-- Witness of C9: a file of two comment lines loads into the empty map, and the
empty file does too. -/
theorem C9_comment_or_blank_file_witness :
    load "# one\n#two\n".toList = [] ∧ load [] = [] ∧
    ((∀ k ∈ (load "# one\n#two\n".toList).keys, k = []) ∧
      ([] ∉ scanLines "# one\n#two\n".toList → load "# one\n#two\n".toList = []) ∧
      ([] ∈ scanLines "# one\n#two\n".toList → load "# one\n#two\n".toList = [([], [])])) :=
  ⟨by decide, by decide, C9_comment_or_blank_file "# one\n#two\n".toList (by decide)⟩

/-- C10: empty keys are dropped.  `serialize` emits the line `k=quoted v` for
every entry whose key is not the empty string, in iteration order, and nothing
for an entry whose key is the empty string.  A blank line, or a line with
nothing before its first `=`, assigns the empty key only and leaves every other
key as it was, so it contributes no line to the output. -/
theorem C10_empty_keys_dropped (entries : List (Str × Str)) (m : EnvMap) (line : Str)
    (hline : line = [] ∨ line.head? = some '=') :
    serialize entries =
      (entries.filter (fun e => decide (e.1 ≠ []))).map (fun e => e.1 ++ ['='] ++ quoted e.2) ∧
    (∀ v, serialize (entries ++ [([], v)]) = serialize entries) ∧
    loadLine m line = m.set [] (withoutEq (line.drop 1)) ∧
    (∀ k, k ≠ [] → (loadLine m line).get? k = m.get? k) ∧
    serialize (loadLine [] line) = [] := by
  have hs : startsWith line '#' = false := by
    rcases hline with h | h
    · subst h; rfl
    · cases line with
      | nil => rfl
      | cons c cs =>
        simp only [List.head?_cons, Option.some.injEq] at h
        subst h
        simp [startsWith]
  have hk : beforeFirstEq line = [] := by
    rcases hline with h | h
    · subst h; rfl
    · cases line with
      | nil => rfl
      | cons c cs =>
        simp only [List.head?_cons, Option.some.injEq] at h
        subst h
        simp [beforeFirstEq]
  have hv : afterFirstEq line = line.drop 1 := by
    rcases hline with h | h
    · subst h; rfl
    · cases line with
      | nil => rfl
      | cons c cs =>
        simp only [List.head?_cons, Option.some.injEq] at h
        subst h
        simp [afterFirstEq]
  have hload : loadLine m line = m.set [] (withoutEq (line.drop 1)) := by
    rw [loadLine_data m line hs, hk, hv]
  refine ⟨?_, ?_, hload, ?_, ?_⟩
  · rw [serialize_eq_map_filter]
    apply List.map_congr_left
    intro e _
    exact renderEntry_eq e.1 e.2
  · intro v
    rw [serialize_append]
    simp [serialize]
  · intro k hne
    rw [hload, EnvMap.get?_set]
    simp [Ne.symm hne]
  · rw [loadLine_data [] line hs, hk]
    simp [EnvMap.set, serialize]

/-- Witness of C10: the line `=x` is stored under the empty key and yields no
output line, while the entry `A=1` next to it is emitted. -/
theorem C10_empty_keys_dropped_witness :
    serialize (load "=x\nA=1\n\n".toList) = ["A=\"1\"".toList] ∧
    (serialize [([], "x".toList), ("A".toList, "1".toList)] =
        ([([], "x".toList), ("A".toList, "1".toList)].filter
          (fun e => decide (e.1 ≠ []))).map (fun e => e.1 ++ ['='] ++ quoted e.2) ∧
      (∀ v, serialize ([([], "x".toList), ("A".toList, "1".toList)] ++ [([], v)]) =
        serialize [([], "x".toList), ("A".toList, "1".toList)]) ∧
      loadLine [("A".toList, "1".toList)] "=x".toList =
        EnvMap.set [("A".toList, "1".toList)] [] (withoutEq ("=x".toList.drop 1)) ∧
      (∀ k, k ≠ [] → (loadLine [("A".toList, "1".toList)] "=x".toList).get? k =
        EnvMap.get? [("A".toList, "1".toList)] k) ∧
      serialize (loadLine [] "=x".toList) = []) :=
  ⟨by decide,
    C10_empty_keys_dropped [([], "x".toList), ("A".toList, "1".toList)]
      [("A".toList, "1".toList)] "=x".toList (Or.inr (by decide))⟩

/-- C11: no duplicate keys in the output.  For every map the overlay loop ends
with, whatever the file and the bundles held, the keys are pairwise distinct;
`serialize` emits the rendering of each entry with a non-empty key, these
entries have pairwise distinct keys, each non-empty key of the map occurs
exactly once among them, and the number of emitted lines is the number of
distinct non-empty keys. -/
theorem C11_one_line_per_key (w : World) (hr : w.RangeOk) (text : Str) (ids : List Str)
    (final : EnvMap) (hfin : overlayAll w (load text) ids = .ok final) :
    final.keys.Nodup ∧
    serialize (w.range final) =
      ((w.range final).filter (fun e => decide (e.1 ≠ []))).map
        (fun e => renderEntry e.1 e.2) ∧
    (((w.range final).filter (fun e => decide (e.1 ≠ []))).map Prod.fst).Nodup ∧
    (∀ k, k ≠ [] → k ∈ final.keys →
      occurrences k (((w.range final).filter (fun e => decide (e.1 ≠ []))).map Prod.fst) = 1) ∧
    (serialize (w.range final)).length = distinctNonEmptyKeys final := by
  have hnd := overlayAll_nodup w ids (load text) final hfin (load_nodup text)
  have hp := hr final
  have hndr : ((w.range final).map Prod.fst).Nodup :=
    (List.Perm.map Prod.fst hp).nodup_iff.2 hnd
  have hnde : (((w.range final).filter (fun e => decide (e.1 ≠ []))).map Prod.fst).Nodup :=
    List.Nodup.sublist (List.Sublist.map Prod.fst (List.filter_sublist _)) hndr
  refine ⟨hnd, serialize_eq_map_filter _, hnde, ?_, ?_⟩
  · intro k hk hmem
    apply occurrences_eq_one _ k hnde
    obtain ⟨e, he, rfl⟩ := List.mem_map.1 hmem
    exact List.mem_map.2 ⟨e, List.mem_filter.2 ⟨hp.mem_iff.2 he, by simpa using hk⟩, rfl⟩
  · rw [serialize_eq_map_filter, List.length_map,
      (List.Perm.filter _ hp).length_eq]
    unfold distinctNonEmptyKeys
    rw [List.Nodup.dedup hnd]
    unfold EnvMap.keys
    rw [List.filter_map, List.length_map]
    rfl

/-- Witness of C11: the file holds `A` twice and `B`, both bundles of
`precedenceWorld` hold `A`; two lines are emitted. -/
theorem C11_one_line_per_key_witness :
    overlayAll precedenceWorld (load "A=1\nA=2\nB=/x".toList) ["b1".toList, "b2".toList] =
      .ok [("A".toList, "3".toList), ("B".toList, "/x".toList)] ∧
    serialize (precedenceWorld.range [("A".toList, "3".toList), ("B".toList, "/x".toList)]) =
      ["B=/x".toList, "A=\"3\"".toList] ∧
    distinctNonEmptyKeys [("A".toList, "3".toList), ("B".toList, "/x".toList)] = 2 ∧
    ((EnvMap.keys [("A".toList, "3".toList), ("B".toList, "/x".toList)]).Nodup ∧
    serialize (precedenceWorld.range [("A".toList, "3".toList), ("B".toList, "/x".toList)]) =
      ((precedenceWorld.range [("A".toList, "3".toList), ("B".toList, "/x".toList)]).filter
        (fun e => decide (e.1 ≠ []))).map (fun e => renderEntry e.1 e.2) ∧
    (((precedenceWorld.range [("A".toList, "3".toList), ("B".toList, "/x".toList)]).filter
      (fun e => decide (e.1 ≠ []))).map Prod.fst).Nodup ∧
    (∀ k, k ≠ [] → k ∈ EnvMap.keys [("A".toList, "3".toList), ("B".toList, "/x".toList)] →
      occurrences k
        (((precedenceWorld.range [("A".toList, "3".toList), ("B".toList, "/x".toList)]).filter
          (fun e => decide (e.1 ≠ []))).map Prod.fst) = 1) ∧
    (serialize
      (precedenceWorld.range [("A".toList, "3".toList), ("B".toList, "/x".toList)])).length =
      distinctNonEmptyKeys [("A".toList, "3".toList), ("B".toList, "/x".toList)]) :=
  ⟨rfl, by decide, by decide,
    C11_one_line_per_key precedenceWorld (fun m => List.reverse_perm m)
      "A=1\nA=2\nB=/x".toList ["b1".toList, "b2".toList]
      [("A".toList, "3".toList), ("B".toList, "/x".toList)] rfl⟩

/-- C12: last line wins within the file.  When `line` is the last non-comment
line of the file with key `k`, the loaded map holds for `k` the value the load
step derives from that line, and holds `k` exactly once. -/
theorem C12_last_line_wins (text k line : Str)
    (hlast : lastLineFor (scanLines text) k = some line) :
    (load text).get? k = some (withoutEq (afterFirstEq line)) ∧
    (load text).get? k = (loadLine [] line).get? k ∧
    occurrences k (load text).keys = 1 := by
  obtain ⟨_, hs, hk⟩ := lastLineFor_spec _ k line hlast
  have hget : (load text).get? k = some (withoutEq (afterFirstEq line)) := by
    unfold load
    rw [get?_loadLines, hlast]
  refine ⟨hget, ?_, ?_⟩
  · rw [hget, loadLine_data [] line hs, EnvMap.get?_set, hk]
    simp
  · apply occurrences_eq_one _ k (load_nodup text)
    by_contra hn
    rw [(EnvMap.get?_eq_none (load text) k).2 hn] at hget
    exact absurd hget (by simp)

/-- Witness of C12: in the file `A=1`, `B=2`, `#A=9`, `A=3` the key `A` ends with
the value `3` and occurs once. -/
theorem C12_last_line_wins_witness :
    load "A=1\nB=2\n#A=9\nA=3\n".toList =
      [("A".toList, "3".toList), ("B".toList, "2".toList)] ∧
    lastLineFor (scanLines "A=1\nB=2\n#A=9\nA=3\n".toList) "A".toList = some "A=3".toList ∧
    ((load "A=1\nB=2\n#A=9\nA=3\n".toList).get? "A".toList =
        some (withoutEq (afterFirstEq "A=3".toList)) ∧
      (load "A=1\nB=2\n#A=9\nA=3\n".toList).get? "A".toList =
        (loadLine [] "A=3".toList).get? "A".toList ∧
      occurrences "A".toList (load "A=1\nB=2\n#A=9\nA=3\n".toList).keys = 1) :=
  ⟨by decide, by decide,
    C12_last_line_wins "A=1\nB=2\n#A=9\nA=3\n".toList "A".toList "A=3".toList (by decide)⟩

/-- C13: a line without `=` is not skipped.  For a line that is not a comment
and holds no `=`, the loop body stores the whole line as key with the empty
string as value, and every file with such a line loads into a map with that
key. -/
theorem C13_line_without_equals (m : EnvMap) (line : Str)
    (hc : startsWith line '#' = false) (hne : '=' ∉ line) :
    loadLine m line = m.set line [] ∧
    (loadLine m line).get? line = some [] ∧
    (∀ text, line ∈ scanLines text → line ∈ (load text).keys) := by
  have hload : loadLine m line = m.set line [] := by
    rw [loadLine_data m line hc, beforeFirstEq_of_no_eq line hne,
      afterFirstEq_of_no_eq line hne]
    rfl
  refine ⟨hload, ?_, ?_⟩
  · rw [hload, EnvMap.get?_set]
    simp
  · intro text hmem
    by_contra hn
    have hnone := (EnvMap.get?_eq_none (load text) line).2 hn
    unfold load at hnone
    rw [get?_loadLines] at hnone
    have hsome := lastLineFor_isSome (scanLines text) line hmem hc
    rw [beforeFirstEq_of_no_eq line hne] at hsome
    cases hl : lastLineFor (scanLines text) line with
    | none => simp [hl] at hsome
    | some l => simp [hl] at hnone

/-- Witness of C13: the line `PLAIN` is stored as key `PLAIN` with the empty value. -/
theorem C13_line_without_equals_witness :
    load "PLAIN\nA=1\n".toList = [("PLAIN".toList, []), ("A".toList, "1".toList)] ∧
    (loadLine [] "PLAIN".toList = EnvMap.set [] "PLAIN".toList [] ∧
      (loadLine [] "PLAIN".toList).get? "PLAIN".toList = some [] ∧
      (∀ text, "PLAIN".toList ∈ scanLines text → "PLAIN".toList ∈ (load text).keys)) :=
  ⟨by decide, C13_line_without_equals [] "PLAIN".toList (by decide) (by decide)⟩

/-- C14 (fails on the code): a failed recreation of the target file and a failed
final flush are not fatal.  When the `os.Create` of line 162 fails, its error is
never looked at, the few lines fit in the writer's buffer, the error of `Flush`
is dropped, and the run reports success with the target file unchanged; when
the file is recreated but cannot be written to, the run reports success and
leaves the file empty. -/
theorem C14_write_failure_reported_as_success :
    readOnlyWorld.recreateFails = true ∧
    main readOnlyWorld =
      { outcome := .success, file := some "FOO=bar\n# comment\nBAZ=/tmp/x".toList } ∧
    fullDiskWorld.writeFails = true ∧
    main fullDiskWorld = { outcome := .success, file := some [] } := by
  decide

/-- C15: no trimming.  For a line that is not a comment and has exactly one `=`,
the loop body stores exactly the characters before the `=` as key and exactly
the characters after it as value, spaces and quote characters included. -/
theorem C15_no_trimming (m : EnvMap) (k v : Str) (hk : '=' ∉ k) (hv : '=' ∉ v)
    (hc : startsWith (k ++ '=' :: v) '#' = false) :
    loadLine m (k ++ '=' :: v) = m.set k v ∧
    (loadLine m (k ++ '=' :: v)).get? k = some v := by
  have hpos : ∀ a ∈ k, (fun c => c != '=') a = true := by
    intro a ha
    have : a ≠ '=' := fun e => hk (e ▸ ha)
    simpa using this
  have h1 : beforeFirstEq (k ++ '=' :: v) = k := by
    unfold beforeFirstEq
    rw [List.takeWhile_append_of_pos hpos]
    simp [List.takeWhile_cons]
  have h2 : afterFirstEq (k ++ '=' :: v) = v := by
    unfold afterFirstEq
    rw [List.dropWhile_append_of_pos hpos]
    simp [List.dropWhile_cons]
  have h3 : withoutEq v = v := by
    unfold withoutEq
    rw [List.filter_eq_self]
    intro a ha
    have : a ≠ '=' := fun e => hv (e ▸ ha)
    simpa using this
  have hload : loadLine m (k ++ '=' :: v) = m.set k v := by
    rw [loadLine_data m _ hc, h1, h2, h3]
  refine ⟨hload, ?_⟩
  rw [hload, EnvMap.get?_set]
  simp

/-- Witness of C15: the line ` A = "x" ` stores the key ` A ` with the value
` "x" `, spaces and quotes kept. -/
theorem C15_no_trimming_witness :
    load " A = \"x\" ".toList = [(" A ".toList, " \"x\" ".toList)] ∧
    (loadLine [] (" A ".toList ++ '=' :: " \"x\" ".toList) =
        EnvMap.set [] " A ".toList " \"x\" ".toList ∧
      (loadLine [] (" A ".toList ++ '=' :: " \"x\" ".toList)).get? " A ".toList =
        some " \"x\" ".toList) :=
  ⟨by decide,
    C15_no_trimming [] " A ".toList " \"x\" ".toList (by decide) (by decide) (by decide)⟩

/-- C16: for a line that is not a comment, the value stored is the
concatenation of the `=`-separated segments after the first one, which is the
text after the first `=` with every `=` taken out, and the key is the first
segment; so no key and no value of a loaded map holds an `=`. -/
theorem C16_value_is_joined_segments (m : EnvMap) (line : Str)
    (hc : startsWith line '#' = false) :
    loadLine m line = m.set ((split line '=').headD []) (joinEmpty (split line '=').tail) ∧
    joinEmpty (split line '=').tail = withoutEq (afterFirstEq line) ∧
    (∀ text k v, (k, v) ∈ load text → '=' ∉ k ∧ '=' ∉ v) := by
  refine ⟨?_, ?_, ?_⟩
  · rw [loadLine_data m line hc, split_headD, joinEmpty_tail_split]
    rfl
  · rw [joinEmpty_tail_split]
    rfl
  · intro text k v hmem
    have h := load_loaded text (k, v) hmem
    exact ⟨h.1, h.2.2.1⟩

/-- Witness of C16: the line `URL=a=b=c` has the segments `URL`, `a`, `b`, `c`
and is stored as `URL` with `abc`. -/
theorem C16_value_is_joined_segments_witness :
    split "URL=a=b=c".toList '=' = ["URL".toList, "a".toList, "b".toList, "c".toList] ∧
    load "URL=a=b=c".toList = [("URL".toList, "abc".toList)] ∧
    (loadLine [] "URL=a=b=c".toList =
        EnvMap.set [] ((split "URL=a=b=c".toList '=').headD [])
          (joinEmpty (split "URL=a=b=c".toList '=').tail) ∧
      joinEmpty (split "URL=a=b=c".toList '=').tail =
        withoutEq (afterFirstEq "URL=a=b=c".toList) ∧
      (∀ text k v, (k, v) ∈ load text → '=' ∉ k ∧ '=' ∉ v)) :=
  ⟨by decide, by decide, C16_value_is_joined_segments [] "URL=a=b=c".toList (by decide)⟩

/-- C17 (fails as stated): the bundle of `injectingWorld` holds the key `A=x`
only, so it does not override the key `A` of the file `A=1`.  The first run
writes `A="1"` and, for the bundle entry, `A=x="y"`; the second run reads that
line as an assignment to `A`, and the file it leaves holds `A="x"y""` instead of
`A=""1""`. -/
theorem C17_bundle_line_read_back_as_key :
    fetchBundle injectingWorld "b1".toList = some [("A=x".toList, "y".toList)] ∧
    EnvMap.get? [("A=x".toList, "y".toList)] "A".toList = none ∧
    rerun injectingWorld 1 = some "A=\"1\"\nA=x=\"y\"\n".toList ∧
    rerun injectingWorld 2 = some "A=\"x\"y\"\"\nA=x=\"y\"\n".toList ∧
    "A=\"\"1\"\"".toList ∉ scanLines "A=\"x\"y\"\"\nA=x=\"y\"\n".toList := by
  decide

/-- C17 (amended): re-running is not idempotent on quoted values.  For a key of
the loaded file map that is not empty and that no bundle holds, a run in which
nothing fails writes the line `k="v"` when the loaded value `v` does not begin
with `/`, and the line `k=v` when it does.  When moreover no bundle key holds an
`=` or a line feed and no bundle value holds a line feed, then, as long as the
file each run starts from has no line of 65536 bytes or more (on which the
scanner gives up), the file left by `n + 1` consecutive runs holds the line of
the key with `v` wrapped in `n + 1` pairs of double quotes. -/
theorem C17_quotes_accumulate (w : World) (hr : w.RangeOk) (bundles : List EnvMap)
    (text k v : Str) (hfile : w.file = some text)
    (hopen : w.openFails = false) (hscan : w.scanFails = false)
    (hrec : w.recreateFails = false) (hwr : w.writeFails = false)
    (hdec : (split w.secretConfigs ',').map (fetchBundle w) = bundles.map some)
    (hk : k ≠ []) (hkv : (load text).get? k = some v)
    (hnot : ∀ b ∈ bundles, b.get? k = none) :
    (∃ lines, main w = { outcome := .success, file := some (fileText lines) } ∧
      (v.head? ≠ some '/' → k ++ ['=', '"'] ++ v ++ ['"'] ∈ lines) ∧
      (v.head? = some '/' → k ++ ['='] ++ v ∈ lines)) ∧
    ((∀ b ∈ bundles, ∀ e ∈ b, Harmless e) → v.head? ≠ some '/' →
      ∀ n, (∀ i, i ≤ n → ∀ t, rerun w i = some t → tooLong t = false) →
        ∃ lines, rerun w (n + 1) = some (fileText lines) ∧
          k ++ ['='] ++ wrapQuotes (n + 1) v ∈ lines) := by
  constructor
  · obtain ⟨lines, hmain, hmem, _⟩ :=
      rerun_step w hr bundles text k v hfile hopen hscan hrec hwr hdec hk hkv hnot
    rw [renderEntry_head] at hmem
    refine ⟨lines, hmain, ?_, ?_⟩
    · intro hv
      simpa [hv] using hmem
    · intro hv
      simpa [hv] using hmem
  · intro hharm hv
    have hhead : ∀ n, (wrapQuotes n v).head? ≠ some '/' := by
      intro n
      cases n with
      | zero => exact hv
      | succ j => simp [wrapQuotes]
    have hstep : ∀ (n : Nat) (t : Str), rerun w n = some t → tooLong t = false →
        (load t).get? k = some (wrapQuotes n v) →
        ∃ lines, rerun w (n + 1) = some (fileText lines) ∧
          k ++ ['='] ++ wrapQuotes (n + 1) v ∈ lines ∧
          (load (fileText lines)).get? k = some (wrapQuotes (n + 1) v) := by
      intro n t ht htl hget
      have heq : '=' ∉ wrapQuotes n v :=
        (load_loaded t _ (EnvMap.mem_of_get? _ k _ hget)).2.2.1
      have hscan' : (w.after (some t)).scanFails = false := by
        show (w.scanFails || tooLongFile (some t)) = false
        rw [hscan]
        exact htl
      have hopen' : (w.after (some t)).openFails = false := by
        show (w.openFails || ((some t).isNone && w.statOtherError)) = false
        rw [hopen]
        rfl
      obtain ⟨lines, hmain, hmem, hload⟩ :=
        rerun_step (w.after (some t)) hr bundles t k (wrapQuotes n v) rfl
          hopen' hscan' hrec hwr hdec hk hget hnot
      refine ⟨lines, ?_, ?_, ?_⟩
      · show (main (w.after (rerun w n))).file = some (fileText lines)
        rw [ht, hmain]
      · rw [renderEntry_head] at hmem
        simpa [hhead n, wrapQuotes] using hmem
      · rw [hload hharm, withoutEq_dropCR_quoted _ (hhead n) heq]
        rfl
    have hinv : ∀ n, (∀ i, i < n → ∀ t, rerun w i = some t → tooLong t = false) →
        ∃ t, rerun w n = some t ∧ (load t).get? k = some (wrapQuotes n v) := by
      intro n
      induction n with
      | zero => intro _; exact ⟨text, hfile, hkv⟩
      | succ n ih =>
        intro hfit
        obtain ⟨t, ht, hget⟩ := ih (fun i hi => hfit i (Nat.lt_succ_of_lt hi))
        obtain ⟨lines, h1, _, h3⟩ := hstep n t ht (hfit n (Nat.lt_succ_self n) t ht) hget
        exact ⟨fileText lines, h1, h3⟩
    intro n hfit
    obtain ⟨t, ht, hget⟩ :=
      hinv n (fun i hi => hfit i (Nat.le_of_lt hi))
    obtain ⟨lines, h1, h2, _⟩ := hstep n t ht (hfit n (Nat.le_refl n) t ht) hget
    exact ⟨lines, h1, h2⟩

/-- Witness of C17: the file `A=1`, `P=/tmp/x` with the bundle `{"B":"2"}`; after
two runs the file holds `A=""1""` and `P=/tmp/x`. -/
theorem C17_quotes_accumulate_witness :
    rerun rerunWorld 2 = some "A=\"\"1\"\"\nP=/tmp/x\nB=\"2\"\n".toList ∧
    ((∃ lines, main rerunWorld = { outcome := .success, file := some (fileText lines) } ∧
      ("1".toList.head? ≠ some '/' →
        "A".toList ++ ['=', '"'] ++ "1".toList ++ ['"'] ∈ lines) ∧
      ("1".toList.head? = some '/' → "A".toList ++ ['='] ++ "1".toList ∈ lines)) ∧
    ((∀ b ∈ [[("B".toList, "2".toList)]], ∀ e ∈ b, Harmless e) →
      "1".toList.head? ≠ some '/' →
      ∀ n, (∀ i, i ≤ n → ∀ t, rerun rerunWorld i = some t → tooLong t = false) →
        ∃ lines, rerun rerunWorld (n + 1) = some (fileText lines) ∧
          "A".toList ++ ['='] ++ wrapQuotes (n + 1) "1".toList ∈ lines)) :=
  ⟨by decide,
    C17_quotes_accumulate rerunWorld (fun m => List.Perm.refl m) [[("B".toList, "2".toList)]]
      "A=1\nP=/tmp/x".toList "A".toList "1".toList rfl rfl rfl rfl rfl (by decide)
      (by decide) (by decide) (by decide)⟩

/-- C18: the list of bundle identifiers.  Splitting the configuration string on
`,` gives a list that is never empty, has one entry more than the string has
commas, and holds the comma-free pieces of the string in their order (joined
with `,` they give the string back).  The empty configuration gives the single
identifier `""`; when the fetch of that identifier fails the run panics and
leaves the target file as the load step left it, and when the load step
succeeded the panic is that of the fetch: the fetch comes before the write. -/
theorem C18_bundle_identifiers (w : World) :
    split w.secretConfigs ',' ≠ [] ∧
    (split w.secretConfigs ',').length =
      (w.secretConfigs.filter (fun c => decide (c = ','))).length + 1 ∧
    joinWith ',' (split w.secretConfigs ',') = w.secretConfigs ∧
    (∀ p ∈ split w.secretConfigs ',', ',' ∉ p) ∧
    (w.secretConfigs = [] → split w.secretConfigs ',' = [[]]) ∧
    (w.secretConfigs = [] → w.getSecret [] = none →
      (∃ e, (main w).outcome = .panicked e) ∧ (main w).file = fileAfterAbort w) ∧
    (w.secretConfigs = [] → w.getSecret [] = none → w.LoadOk →
      main w = { outcome := .panicked .fetch, file := some (w.file.getD []) }) := by
  refine ⟨split_ne_nil _ _, split_length _ _, joinWith_split _ _, split_no_sep _ _,
    ?_, ?_, ?_⟩
  · intro h
    rw [h]
    rfl
  · intro h hg
    have hfetch : fetchBundle w [] = none := by
      unfold fetchBundle
      simp [hg]
    have hid : ([] : Str) ∈ split w.secretConfigs ',' := by
      rw [h]
      simp [split]
    exact main_of_overlay_error w (overlayAll_fails w [] hfetch _ hid)
  · intro h hg hload
    rw [main_of_loadOk w hload, h]
    have : split ([] : Str) ',' = [[]] := rfl
    rw [this]
    simp [overlayAll, hg]

/-- Witness of C18: with an empty configuration the identifier `""` is fetched;
as the fetch fails, the run panics and the file `A=1` stays as it was; when the
target path cannot be resolved the run stops before the fetch and leaves no
file.  The configuration `b1,b2` gives the two identifiers in order. -/
theorem C18_bundle_identifiers_witness :
    split "b1,b2".toList ',' = ["b1".toList, "b2".toList] ∧
    main emptyConfigWorld = { outcome := .panicked .fetch, file := some "A=1".toList } ∧
    main notDirWorld = { outcome := .panicked .openFile, file := none } ∧
    fileAfterAbort notDirWorld = none ∧
    (split emptyConfigWorld.secretConfigs ',' ≠ [] ∧
    (split emptyConfigWorld.secretConfigs ',').length =
      (emptyConfigWorld.secretConfigs.filter (fun c => decide (c = ','))).length + 1 ∧
    joinWith ',' (split emptyConfigWorld.secretConfigs ',') = emptyConfigWorld.secretConfigs ∧
    (∀ p ∈ split emptyConfigWorld.secretConfigs ',', ',' ∉ p) ∧
    (emptyConfigWorld.secretConfigs = [] → split emptyConfigWorld.secretConfigs ',' = [[]]) ∧
    (emptyConfigWorld.secretConfigs = [] → emptyConfigWorld.getSecret [] = none →
      (∃ e, (main emptyConfigWorld).outcome = .panicked e) ∧
        (main emptyConfigWorld).file = fileAfterAbort emptyConfigWorld) ∧
    (emptyConfigWorld.secretConfigs = [] → emptyConfigWorld.getSecret [] = none →
      emptyConfigWorld.LoadOk →
      main emptyConfigWorld =
        { outcome := .panicked .fetch, file := some (emptyConfigWorld.file.getD []) })) :=
  ⟨by decide, by decide, by decide, by decide, C18_bundle_identifiers emptyConfigWorld⟩

end BuildDotenv
